import Mathlib

/-!
# font-picker: variant resolution and the font load cache

A shallow embedding of `src/fontLoader.js` (`createFontKey`, `getVariantKey`,
`loadFont`, `isFontLoaded`, `getBestVariant`) together with the data shapes of
`src/types.js`, followed by the properties proved about them.

Conventions of the embedding:
* a JavaScript value that may be `null`/`undefined` is an `Option`;
* font weights are integers (`Int`), styles are strings, as in `VariantMeta`;
  the weights are JavaScript numbers, so a difference of two weights is rounded
  to a double and the text of a weight is the one `Number::toString` gives;
* an object used as a string-keyed dictionary (`files`) is an association list;
* the module-level `Set`/`Map` caches are fields of an explicit state record.
-/

namespace FontPicker

/-! ## Data model (`src/types.js`) -/

/-- The `VariantMeta` typedef: a weight and a style. -/
structure VariantMeta where
  weight : Int
  style : String
deriving DecidableEq, Repr

/-- The `FontMeta` typedef. `variants` and `files` may be missing on a value
that reaches the loader, so both are optional. -/
structure FontMeta where
  id : String
  family : String
  category : Option String
  variants : Option (List VariantMeta)
  files : Option (List (String × String))
  source : String
deriving DecidableEq, Repr

/-! ## JavaScript numbers

The weights are the integers that are JavaScript numbers (doubles). What the
code computes with numbers is exact except for what is modelled here: a
difference of weights and the product of `Math.random()` with a length are
rounded to the nearest double, and the text of a number beyond 2^53 is the
shortest decimal that reads back as the number. -/

/-- The double nearest to an integer, ties going to the even mantissa; the
magnitude 2^1024 stands for `Infinity`. Every integer up to 2^53 in magnitude
is a double. -/
def roundToDouble (x : Int) : Int :=
  if x.natAbs ≤ 2 ^ 53 then x
  else
    let magnitude : Nat :=
      match (List.range 972).find? (fun shift => decide (x.natAbs < 2 ^ (53 + shift))) with
      | none => 2 ^ 1024
      | some shift =>
        let kept := x.natAbs / 2 ^ shift
        let rest := x.natAbs % 2 ^ shift
        let half := 2 ^ (shift - 1)
        let rounded := if half < rest ∨ (rest = half ∧ kept % 2 = 1) then kept + 1 else kept
        rounded * 2 ^ shift
    if x < 0 then -Int.ofNat magnitude else Int.ofNat magnitude

/-- The digits `s` and the position `n` of the conversion of a positive number
to text: the shortest `s` for which `s × 10^(n - k)`, `k` being the number of
digits of `s`, reads back as the double `x`; of two such values the one nearer
to `x`, and the even one when they are equally near. -/
def shortestDecimal (x : Nat) : Nat × Nat :=
  let d := (Nat.toDigits 10 x).length
  let found := (List.range d).findSome? (fun j =>
    let k := j + 1
    let e := d - k
    let low := x / 10 ^ e
    let high := low + 1
    let lowOk := decide (roundToDouble (Int.ofNat (low * 10 ^ e)) = Int.ofNat x)
    let highOk := decide (roundToDouble (Int.ofNat (high * 10 ^ e)) = Int.ofNat x)
    let highDigits : Nat × Nat := if high < 10 ^ k then (high, d) else (high / 10, d + 1)
    if lowOk && highOk then
      if x - low * 10 ^ e < high * 10 ^ e - x then some (low, d)
      else if high * 10 ^ e - x < x - low * 10 ^ e then some highDigits
      else if low % 2 = 0 then some (low, d) else some highDigits
    else if lowOk then some (low, d)
    else if highOk then some highDigits
    else none)
  match found with
  | some r => r
  | none => (x, d)

/-- The text of a number that is not negative. Up to 2^53 every digit of the
integer is significant and the text is its decimal expansion; beyond, it is
the shortest decimal, with zeros up to 21 digits and with an exponent from
there on. -/
def positiveText (x : Nat) : String :=
  if x ≤ 2 ^ 53 then Nat.repr x
  else
    let s := (shortestDecimal x).1
    let n := (shortestDecimal x).2
    let digits := Nat.toDigits 10 s
    if n ≤ 21 then String.mk (digits ++ List.replicate (n - digits.length) '0')
    else
      match digits with
      | [] => ""
      | [c] => String.mk [c] ++ "e+" ++ Nat.repr (n - 1)
      | c :: cs => String.mk (c :: '.' :: cs) ++ "e+" ++ Nat.repr (n - 1)

/-- The text of an integer number in a template literal and under
`toString()`. -/
def numberToString (x : Int) : String :=
  if x < 0 then "-" ++ positiveText x.natAbs else positiveText x.natAbs

/-! ## `getBestVariant` -/

/-- The distance `Math.abs(v.weight - preferredWeight)`: the difference is a
double. -/
def weightDistance (v : VariantMeta) (preferredWeight : Int) : Int :=
  |roundToDouble (v.weight - preferredWeight)|

/-- The callback of the `reduce` in `getBestVariant`: keep `prev` unless `curr`
is strictly closer to the preferred weight. -/
def closerVariant (preferredWeight : Int) (prev curr : VariantMeta) : VariantMeta :=
  if weightDistance curr preferredWeight < weightDistance prev preferredWeight then curr else prev

/-- The call `sameStyle.reduce(callback)` without an initial value, on a
non-empty array given as head and tail. -/
def reduceClosest (preferredWeight : Int) (first : VariantMeta) (rest : List VariantMeta) :
    VariantMeta :=
  rest.foldl (closerVariant preferredWeight) first

/-- The synthetic default `{ weight: 400, style: "normal" }`. -/
def defaultVariant : VariantMeta := ⟨400, "normal"⟩

/-- The function `getBestVariant(fontMeta, preferredWeight, preferredStyle)`.
(The JavaScript defaults of the two last parameters are `400` and `"normal"`.) -/
def getBestVariant (fontMeta : Option FontMeta) (preferredWeight : Int)
    (preferredStyle : String) : VariantMeta :=
  match fontMeta with
  | none => defaultVariant
  | some meta =>
    match meta.variants with
    | none => defaultVariant
    | some [] => defaultVariant
    | some (v0 :: vs) =>
      -- Try exact match first
      match (v0 :: vs).find? (fun v => v.weight == preferredWeight && v.style == preferredStyle) with
      | some exactMatch => exactMatch
      | none =>
        -- Try same style, different weight
        match (v0 :: vs).filter (fun v => v.style == preferredStyle) with
        | first :: rest => reduceClosest preferredWeight first rest
        | [] =>
          -- Try normal style, same weight
          match (v0 :: vs).find? (fun v => v.weight == preferredWeight && v.style == "normal") with
          | some normalStyle => normalStyle
          | none => v0

/-! ## Cache keys and file keys -/

/-- The function `createFontKey(family, weight, style)`: the template literal
that joins family, weight and style with hyphens. -/
def createFontKey (family : String) (weight : Int) (style : String) : String :=
  family ++ "-" ++ numberToString weight ++ "-" ++ style

/-- The function `getVariantKey(weight, style)`. -/
def getVariantKey (weight : Int) (style : String) : String :=
  if style = "italic" then numberToString weight ++ "italic" else numberToString weight

/-! ## Dictionaries, sets and truthiness -/

/-- Property access `obj[key]` on a string-keyed dictionary; `none` is
`undefined`. -/
def dictGet {β : Type} (key : String) : List (String × β) → Option β
  | [] => none
  | (k, v) :: rest => if k = key then some v else dictGet key rest

/-- The call `map.delete(key)`. -/
def dictDelete {β : Type} (key : String) (m : List (String × β)) : List (String × β) :=
  m.filter (fun e => decide (e.1 ≠ key))

/-- The call `map.set(key, value)`; the position of the entry is not observed
by the module, which never iterates over its map. -/
def dictSet {β : Type} (key : String) (value : β) (m : List (String × β)) : List (String × β) :=
  (key, value) :: dictDelete key m

/-- The call `set.add(key)`. -/
def setAdd (key : String) (s : List String) : List String :=
  if key ∈ s then s else s ++ [key]

/-- JavaScript truthiness of a value that is `undefined` or a string: only a
non-empty string is truthy. -/
def truthy : Option String → Bool
  | none => false
  | some u => decide (u ≠ "")

/-- The operator `a || b` on such values. -/
def jsOr (a b : Option String) : Option String :=
  if truthy a then a else b

/-! ## The loader state and `loadFont` -/

/-- What `loadFont` finds when it reaches `typeof FontFace` and
`new FontFace(...)`. -/
inductive FontFaceEnv where
  /-- The test `typeof FontFace === "undefined"` holds. -/
  | unsupported
  /-- The constructor `new FontFace(...)` throws. -/
  | constructorThrows
  /-- The constructor returns a face and `load()` returns a pending promise. -/
  | supported
deriving DecidableEq, Repr

/-- The arguments of one `new FontFace(family, source, { weight, style })`. -/
structure FontFace where
  family : String
  source : String
  weight : String
  style : String
deriving DecidableEq, Repr

/-- An invocation of the inner `async` body that is suspended at
`await fontFace.load()`. `promise` is the handle of its `loadingPromise`. -/
structure PendingLoad where
  promise : Nat
  cacheKey : String
  fontFace : FontFace
deriving DecidableEq, Repr

/-- The module state of `fontLoader.js` and the part of the host it touches. -/
structure LoaderState where
  /-- The set `loadedFonts`. -/
  loadedFonts : List String
  /-- The map `loadingPromises`, from cache key to promise handle. -/
  loadingPromises : List (String × Nat)
  /-- The inner bodies suspended at `await fontFace.load()`. -/
  pending : List PendingLoad
  /-- The promises created by the inner body that have resolved, with their value. -/
  settled : List (Nat × Bool)
  /-- The font set `document.fonts`. -/
  documentFonts : List FontFace
  /-- Every face on which `load()` has been called, oldest first. -/
  registrations : List FontFace
  /-- The next unused promise handle. -/
  nextPromise : Nat
deriving DecidableEq, Repr

/-- The state when the module has just been evaluated. -/
def LoaderState.initial : LoaderState :=
  { loadedFonts := [], loadingPromises := [], pending := [], settled := [],
    documentFonts := [], registrations := [], nextPromise := 0 }

/-- The promise returned by a call of the `async function loadFont`: either it
is already resolved with a boolean, or it adopts the promise with the given
handle (`return loadingPromise` and `return loadingPromises.get(cacheKey)`). -/
inductive LoadResult where
  | resolved (value : Bool)
  | adopts (promise : Nat)
deriving DecidableEq, Repr

/-- The inner `async` body of `loadFont` up to its first suspension, followed by
`loadingPromises.set(cacheKey, loadingPromise)`. When `FontFace` is missing or
its constructor throws, the body runs to its end (with its `finally`) before
the promise is stored. -/
def startLoad (env : FontFaceEnv) (family : String) (weight : Int) (style : String)
    (cacheKey : String) (actualUrl : String) (st : LoaderState) : LoadResult × LoaderState :=
  let p := st.nextPromise
  match env with
  | .unsupported =>
    (.adopts p,
      { st with
        loadingPromises := dictSet cacheKey p (dictDelete cacheKey st.loadingPromises)
        settled := (p, false) :: st.settled
        nextPromise := p + 1 })
  | .constructorThrows =>
    (.adopts p,
      { st with
        loadingPromises := dictSet cacheKey p (dictDelete cacheKey st.loadingPromises)
        settled := (p, false) :: st.settled
        nextPromise := p + 1 })
  | .supported =>
    let fontFace : FontFace :=
      { family := family, source := "url(" ++ actualUrl ++ ")",
        weight := numberToString weight, style := style }
    (.adopts p,
      { st with
        loadingPromises := dictSet cacheKey p st.loadingPromises
        pending := st.pending ++ [{ promise := p, cacheKey := cacheKey, fontFace := fontFace }]
        registrations := st.registrations ++ [fontFace]
        nextPromise := p + 1 })

/-- The function `loadFont(fontMeta, weight, style)`, run up to the point where
it returns its promise. -/
def loadFont (env : FontFaceEnv) (fontMeta : Option FontMeta) (weight : Int) (style : String)
    (st : LoaderState) : LoadResult × LoaderState :=
  match fontMeta with
  | none => (.resolved false, st)
  | some fm =>
    match fm.files with
    | none => (.resolved false, st)
    | some files =>
      let cacheKey := createFontKey fm.family weight style
      -- Already loaded
      if cacheKey ∈ st.loadedFonts then (.resolved true, st)
      else
        -- Already loading
        match dictGet cacheKey st.loadingPromises with
        | some p => (.adopts p, st)
        | none =>
          let fontUrl := dictGet (getVariantKey weight style) files
          let fallbackUrl := dictGet (getVariantKey 400 style) files
          let finalFallbackUrl := dictGet (getVariantKey 400 "normal") files
          if !truthy fontUrl && !truthy fallbackUrl && !truthy finalFallbackUrl then
            (.resolved false, st)
          else
            match jsOr fontUrl (jsOr fallbackUrl finalFallbackUrl) with
            | none => (.resolved false, st)
            | some actualUrl =>
              if actualUrl = "" then (.resolved false, st)
              else startLoad env fm.family weight style cacheKey actualUrl st

/-- The resumption of the inner body whose promise is `p`, once
`fontFace.load()` has fulfilled (`ok = true`) or rejected (`ok = false`); the
`finally` block runs in both cases. No body is suspended on another handle. -/
def settleLoad (p : Nat) (ok : Bool) (st : LoaderState) : LoaderState :=
  match st.pending.find? (fun t => t.promise == p) with
  | none => st
  | some t =>
    if ok then
      { st with
        documentFonts := st.documentFonts ++ [t.fontFace]
        loadedFonts := setAdd t.cacheKey st.loadedFonts
        loadingPromises := dictDelete t.cacheKey st.loadingPromises
        pending := st.pending.filter (fun u => u.promise != p)
        settled := (p, true) :: st.settled }
    else
      { st with
        loadingPromises := dictDelete t.cacheKey st.loadingPromises
        pending := st.pending.filter (fun u => u.promise != p)
        settled := (p, false) :: st.settled }

/-- The function `isFontLoaded(family, weight, style)`. -/
def isFontLoaded (family : String) (weight : Int) (style : String) (st : LoaderState) : Bool :=
  decide (createFontKey family weight style ∈ st.loadedFonts)

/-- The value a returned promise has resolved to, if it has. -/
def LoadResult.value (r : LoadResult) (st : LoaderState) : Option Bool :=
  match r with
  | .resolved b => some b
  | .adopts p => (st.settled.find? (fun e => e.1 == p)).map Prod.snd

/-- One step of the single-threaded scheduler: a call of `loadFont`, or the
completion of a `fontFace.load()`. -/
inductive LoaderEvent where
  | call (env : FontFaceEnv) (fontMeta : Option FontMeta) (weight : Int) (style : String)
  | settle (promise : Nat) (ok : Bool)
deriving DecidableEq, Repr

/-- The state after one event. -/
def stepLoader (st : LoaderState) : LoaderEvent → LoaderState
  | .call env fontMeta weight style => (loadFont env fontMeta weight style st).2
  | .settle p ok => settleLoad p ok st

/-- The state after a sequence of events, from the state `st`. -/
def runLoader (st : LoaderState) (events : List LoaderEvent) : LoaderState :=
  events.foldl stepLoader st

/-! ## Descriptors used in the examples -/

/-- A descriptor used in the examples: the variants (400, normal), (400, italic)
and (700, normal), with no files. -/
def exampleMeta : FontMeta :=
  { id := "example", family := "Example", category := none,
    variants := some [⟨400, "normal"⟩, ⟨400, "italic"⟩, ⟨700, "normal"⟩],
    files := some [], source := "bundled" }

/-- A descriptor with two normal variants at the same distance from weight 400. -/
def tieMeta : FontMeta :=
  { id := "tie", family := "Tie", category := none,
    variants := some [⟨300, "normal"⟩, ⟨500, "normal"⟩, ⟨300, "italic"⟩],
    files := some [], source := "bundled" }

/-- A descriptor whose variants are all normal. -/
def normalOnlyMeta : FontMeta :=
  { id := "a", family := "A", category := none,
    variants := some [⟨400, "normal"⟩, ⟨700, "normal"⟩],
    files := some [("400", "a-400.woff2"), ("700", "a-700.woff2")], source := "bundled" }

/-- A descriptor whose only file is the one under `"400"`. -/
def regularOnlyMeta : FontMeta :=
  { id := "r", family := "R", category := none,
    variants := some [⟨400, "normal"⟩],
    files := some [("400", "r-400.woff2")], source := "uploaded" }

/-- A second descriptor of the family `"A"`, with no file at all. -/
def emptyFilesMeta : FontMeta :=
  { id := "a2", family := "A", category := none,
    variants := some [⟨400, "normal"⟩], files := some [], source := "uploaded" }

/-- The state after `normalOnlyMeta` has been loaded at (400, normal): the
call of `loadFont`, then the fulfilment of its `fontFace.load()`. -/
def loadedState : LoaderState :=
  runLoader LoaderState.initial
    [.call .supported (some normalOnlyMeta) 400 "normal", .settle 0 true]

/-- The descriptor `normalOnlyMeta` without its `files` map. -/
def filesLessMeta : FontMeta := { normalOnlyMeta with files := none }

/-- A descriptor whose two weights lie where the doubles are two apart. -/
def hugeMeta : FontMeta :=
  { id := "huge", family := "Huge", category := none,
    variants := some [⟨9007199254740992, "normal"⟩, ⟨9007199254740991, "normal"⟩],
    files := some [], source := "bundled" }

/-! ## The invariant of the loader -/

/-- What holds of the suspended loads in every state the module can reach:
their handles are older than the next handle, each is the entry of the
in-flight map under its cache key, none of their keys is in the loaded set,
and no two of them share a cache key or a handle. -/
structure LoaderInv (st : LoaderState) : Prop where
  fresh : ∀ t ∈ st.pending, t.promise < st.nextPromise
  inFlight : ∀ t ∈ st.pending, dictGet t.cacheKey st.loadingPromises = some t.promise
  notLoaded : ∀ t ∈ st.pending, t.cacheKey ∉ st.loadedFonts
  distinct : (st.pending.map PendingLoad.cacheKey).Nodup
  distinctPromise : (st.pending.map PendingLoad.promise).Nodup

/-! ## `preloadFont` and the promises of the in-flight map -/

/-- The function `preloadFont(fontMeta)`: one call of `loadFont` per declared
variant, in list order, all made before any of them can resume; the result is
the list of their promises. -/
def preloadFont (env : FontFaceEnv) (fontMeta : Option FontMeta) (st : LoaderState) :
    List LoadResult × LoaderState :=
  match fontMeta with
  | none => ([], st)
  | some fm =>
    match fm.variants with
    | none => ([], st)
    | some variants =>
      variants.foldl
        (fun acc v =>
          ((acc.1 ++ [(loadFont env (some fm) v.weight v.style acc.2).1]),
            (loadFont env (some fm) v.weight v.style acc.2).2))
        ([], st)

/-- Every promise stored in the in-flight map either belongs to a suspended
load or has already resolved to a boolean. -/
def PromisesAccounted (st : LoaderState) : Prop :=
  ∀ k p, dictGet k st.loadingPromises = some p →
    (∃ t ∈ st.pending, t.promise = p) ∨ ∃ b, (LoadResult.adopts p).value st = some b

/-! ## The application state (`src/App.jsx`) -/

/-- The state object of the `App` component: the persisted fields and the
transient ones, in the order of the initialiser. -/
structure AppState where
  catalog : List FontMeta
  leftId : Option String
  rightId : Option String
  backgroundColor : String
  weight : Int
  style : String
  sizePx : Int
  sampleText : String
  favorites : List String
  showFontPicker : Bool
  fontPickerSide : Option String
  showUpload : Bool
  showFavorites : Bool
  loadingFonts : List String
  uploadError : Option String
  isUploading : Bool
  fontSearch : String
  fontCategoryFilter : String
deriving DecidableEq, Repr

/-- The helper `getFontById(id)`: `state.catalog.find((f) => f.id === id)`. -/
def getFontById (id : Option String) (st : AppState) : Option FontMeta :=
  st.catalog.find? (fun f => decide (some f.id = id))

/-- The value of one `Math.random()`: a double in `[0, 1)`, which is
`mantissa / 2 ^ exponent` with a mantissa of at most 53 bits and an exponent of
at most 1074. -/
structure RandomDraw where
  mantissa : Nat
  exponent : Nat
  lt_one : mantissa < 2 ^ exponent
  significant : mantissa < 2 ^ 53
  representable : exponent ≤ 1074

/-- The call `[a, b].filter(Boolean)` on optional ids: the ids that are present
and not the empty string. -/
def truthyIds (ids : List (Option String)) : List String :=
  ids.filterMap (fun id => match id with
    | some x => if x = "" then none else some x
    | none => none)

/-- The helper `randomFontId(exclude)`: the id of the pool entry at index
`Math.floor(Math.random() * pool.length)`, or `undefined` when there is none.
The product is a double: the exact product `mantissa * pool.length / 2 ^ exponent`
rounded to 53 significant bits. -/
def randomFontId (exclude : List String) (draw : RandomDraw) (st : AppState) : Option String :=
  let pool := st.catalog.filter (fun f => !exclude.contains f.id)
  let product := roundToDouble (Int.ofNat (draw.mantissa * pool.length))
  (pool[product.toNat / 2 ^ draw.exponent]?).map (fun f => f.id)

/-- The handler `pickWinner(side)`; any `side` other than `"left"` selects the
right font as the winner. The handler reads the state of the render that
created it and hands its update to `setState`; here both are the state `st`. -/
def pickWinner (side : String) (draw : RandomDraw) (st : AppState) : AppState :=
  let winnerId := if side = "left" then st.leftId else st.rightId
  let currentLoserId := if side = "left" then st.rightId else st.leftId
  match randomFontId (truthyIds [winnerId, currentLoserId]) draw st with
  | none => st
  | some nextId =>
    if nextId = "" then st
    else if side = "left" then { st with rightId := some nextId }
    else { st with leftId := some nextId }

/-- The handler `toggleFavorite(fontId)`. -/
def toggleFavorite (fontId : String) (st : AppState) : AppState :=
  { st with
    favorites :=
      if fontId ∈ st.favorites then st.favorites.filter (fun id => decide (id ≠ fontId))
      else st.favorites ++ [fontId] }

/-- The handler `addUploadedFont(fontData)`. -/
def addUploadedFont (fontData : FontMeta) (st : AppState) : AppState :=
  { st with catalog := st.catalog ++ [fontData], showUpload := false }

/-- The handler `handleFileUpload(files)`, given what the awaited
`processUploadedFonts(files)` produced: its descriptors, or the message of the
error it threw. -/
def handleFileUpload (processed : Except String (List FontMeta)) (st : AppState) : AppState :=
  let started := { st with isUploading := true, uploadError := none }
  match processed with
  | .ok fontMetas =>
    { started with
      catalog := started.catalog ++ fontMetas, isUploading := false, showUpload := false }
  | .error message =>
    { started with uploadError := some message, isUploading := false }

/-- What an `await loadFont(...)` yields inside `loadFontsForSide`: the boolean
the promise resolved to, or a rejection, which enters the `catch` block. -/
inductive Awaited where
  | value (success : Bool)
  | rejected
deriving DecidableEq, Repr

/-- The calls of `loadFont` made by `loadFontsForSide(fontId, weight, style)`,
as (font, weight, style) in the order they are made; `first` and `second` are
what the awaits of the first and of the second call yield. -/
def loadFontsForSide (fontId : String) (weight : Int) (style : String)
    (first second : Awaited) (st : AppState) : List (FontMeta × Int × String) :=
  match getFontById (some fontId) st with
  | none => []
  | some font =>
    if fontId ++ "-" ++ numberToString weight ++ "-" ++ style ∈ st.loadingFonts then []
    else
      (font, weight, style) ::
        match first with
        | .value success =>
          if !success && style = "italic" then
            (font, weight, "normal") ::
              match second with
              | .value _ => []
              | .rejected => [(font, 400, "normal")]
          else []
        | .rejected => [(font, 400, "normal")]

/-- What awaiting a promise returned by `loadFont` yields in the state `st`,
once it has resolved. -/
def awaited (r : LoadResult) (st : LoaderState) : Option Awaited :=
  (r.value st).map Awaited.value

/-! ## Uploads (`src/fontUpload.js`) -/

/-- The fields of an uploaded `File` that the module reads. -/
structure UploadedFile where
  name : String
  type : String
deriving DecidableEq, Repr

/-- The object returned by `parseFontFilename`. -/
structure ParsedFilename where
  family : String
  weight : Int
  style : String
deriving DecidableEq, Repr

/-- The optional `metadata` override of `createFontMetaFromFile`; an absent
field is `undefined`. -/
structure UploadMetadata where
  family : Option String
  category : Option String
  weight : Option Int
  style : Option String
deriving DecidableEq, Repr

/-- The expression `a || b` where `a` is an optional string. -/
def orString (a : Option String) (b : String) : String :=
  match a with
  | some x => if x = "" then b else x
  | none => b

/-- The expression `a || b` where `a` is an optional integer (`0` is falsy). -/
def orInt (a : Option Int) (b : Int) : Int :=
  match a with
  | some x => if x = 0 then b else x
  | none => b

/-- The expression `file.name.replace(/[^a-zA-Z0-9]/g, "-").toLowerCase()` of
the id: every UTF-16 code unit that is not an ASCII letter or digit becomes a
hyphen (a character outside the basic plane is two code units). -/
def idSlug (name : String) : String :=
  String.mk (name.data.flatMap (fun c =>
    if c.isAlphanum then [c.toLower]
    else if c.val > 0xFFFF then ['-', '-']
    else ['-']))

/-- The function `createFontMetaFromFile(file, metadata)` from line 114 on.
`parsed` is the value of `parseFontFilename(file.name)` of line 113, `blobUrl`
the value of `URL.createObjectURL(file)` and `now` the value of `Date.now()`.
(The `originalFile` field of the result is not represented.) -/
def createFontMetaFromFile (file : UploadedFile) (metadata : UploadMetadata)
    (parsed : ParsedFilename) (blobUrl : String) (now : Nat) : FontMeta :=
  { id := "uploaded-" ++ idSlug file.name ++ "-" ++ numberToString (Int.ofNat now)
    family := orString metadata.family parsed.family
    category := some (orString metadata.category "sans-serif")
    variants := some [{ weight := orInt metadata.weight parsed.weight,
                        style := orString metadata.style parsed.style }]
    files := some [(numberToString (orInt metadata.weight parsed.weight) ++
        (if metadata.style = some "italic" ∨ parsed.style = "italic" then "italic" else ""),
      blobUrl)]
    source := "uploaded" }

/-- The key `fileKey` that `loadUploadedFont` computes from `variants[0]`. -/
def uploadedFileKey (variant : VariantMeta) : String :=
  numberToString variant.weight ++ (if variant.style = "italic" then "italic" else "")

/-- The locator that `loadUploadedFont(fontMeta)` goes on to register: the
entry of `files` under the key of `variants[0]`; `none` when the function
throws instead (no first variant, no `files`, or no non-empty entry). -/
def loadUploadedFontUrl (fontMeta : FontMeta) : Option String :=
  match fontMeta.variants, fontMeta.files with
  | some (variant :: _), some files =>
    if truthy (dictGet (uploadedFileKey variant) files) then
      dictGet (uploadedFileKey variant) files
    else none
  | _, _ => none

/-! ## Decimal text -/

/-- The number written by a list of decimal digit characters. -/
def decimalValue (digits : List Char) : Nat :=
  digits.foldl (fun acc c => 10 * acc + (c.toNat - 48)) 0

/-- The text the specification gives a variant key for the normal style, in the
words of the specification: the decimal text of the weight, which is a minus
sign for a negative weight followed by the decimal digits of its magnitude. -/
def decimalText (w : Int) : String :=
  if w < 0 then String.mk ('-' :: Nat.toDigits 10 w.natAbs)
  else String.mk (Nat.toDigits 10 w.natAbs)

/-! ## Further examples -/

/-- A descriptor with files for (700, italic), (700, normal) and (400, normal). -/
def brokenMeta : FontMeta :=
  { id := "b", family := "B", category := none,
    variants := some [⟨400, "normal"⟩, ⟨700, "normal"⟩, ⟨700, "italic"⟩],
    files := some [("700italic", "b-700i.woff2"), ("700", "b-700.woff2"),
      ("400", "b-400.woff2")],
    source := "google" }

/-- An application state whose catalog holds the example descriptors, with
`"a"` on the left and `"r"` on the right. -/
def sampleState : AppState :=
  { catalog := [normalOnlyMeta, regularOnlyMeta, brokenMeta],
    leftId := some "a", rightId := some "r", backgroundColor := "#ffffff",
    weight := 400, style := "normal", sizePx := 32,
    sampleText := "The quick brown fox jumps over the lazy dog", favorites := [],
    showFontPicker := false, fontPickerSide := none, showUpload := false,
    showFavorites := false, loadingFonts := [], uploadError := none, isUploading := false,
    fontSearch := "", fontCategoryFilter := "" }

/-- The loader after `loadFont(brokenMeta, 700, "italic")` on a fresh module and
the rejection of its `fontFace.load()`. -/
def afterItalicRejected : LoaderState :=
  settleLoad 0 false (loadFont .supported (some brokenMeta) 700 "italic" LoaderState.initial).2

/-- The loader after the following `loadFont(brokenMeta, 700, "normal")` and
the rejection of its `fontFace.load()`. -/
def afterNormalRejected : LoaderState :=
  settleLoad 1 false (loadFont .supported (some brokenMeta) 700 "normal" afterItalicRejected).2

/-- An application state whose catalog has three entries, two of them with the
id `"a"`, with `"a"` on the left and `"r"` on the right. -/
def duplicateIdState : AppState :=
  { sampleState with catalog := [normalOnlyMeta, normalOnlyMeta, regularOnlyMeta] }

/-- A value of `Math.random()` in the middle of the range. -/
def halfDraw : RandomDraw :=
  { mantissa := 1, exponent := 1, lt_one := by decide, significant := by decide,
    representable := by decide }

/-- The value 0.6666666666666666 of `Math.random()`, whose product with 3 is
rounded up to 2. -/
def twoThirdsDraw : RandomDraw :=
  { mantissa := 6004799503160661, exponent := 53, lt_one := by decide,
    significant := by decide, representable := by decide }

/-- A descriptor with the empty string as its id. -/
def emptyIdMeta : FontMeta :=
  { id := "", family := "E", category := none,
    variants := some [⟨400, "normal"⟩],
    files := some [("400", "e-400.woff2")], source := "uploaded" }

/-- An application state whose catalog has three entries with the different
ids `"a"`, `"r"` and `""`, with `"a"` on the left and `"r"` on the right. -/
def emptyIdState : AppState :=
  { sampleState with catalog := [normalOnlyMeta, regularOnlyMeta, emptyIdMeta] }

/-- An application state whose catalog repeats the id `"a"` and has five
different ids, with `"a"` on the left and `"r"` on the right. -/
def repeatedIdState : AppState :=
  { sampleState with
    catalog := [normalOnlyMeta, normalOnlyMeta, regularOnlyMeta, brokenMeta, hugeMeta,
      exampleMeta] }

/-- A second descriptor with the id `"a"`. -/
def duplicateMeta : FontMeta :=
  { id := "a", family := "Another", category := none,
    variants := some [⟨400, "normal"⟩],
    files := some [("400", "another.woff2")], source := "uploaded" }

/-- An upload named `Foo-Italic.woff2`, for which `parseFontFilename` returns
the family `"Foo"`, the weight 400 and the style `"italic"`. -/
def italicFile : UploadedFile := { name := "Foo-Italic.woff2", type := "font/woff2" }

/-- The value of `parseFontFilename("Foo-Italic.woff2")`. -/
def italicParsed : ParsedFilename := { family := "Foo", weight := 400, style := "italic" }

/-- The metadata override `{ style: "normal" }`. -/
def normalStyleOverride : UploadMetadata :=
  { family := none, category := none, weight := none, style := some "normal" }

/-- The metadata override `{}`, the default of the parameter. -/
def noOverride : UploadMetadata :=
  { family := none, category := none, weight := none, style := none }

/-! ## `parseFontFilename` and `isSupportedFontFile` (`src/fontUpload.js`) -/

/-- The characters matched by `\s` in a regular expression, which are also the
ones `parseInt` skips at the start: white space and line terminators. -/
def isJsSpace (c : Char) : Bool :=
  c.toNat = 0x9 || c.toNat = 0xA || c.toNat = 0xB || c.toNat = 0xC || c.toNat = 0xD ||
  c.toNat = 0x20 || c.toNat = 0xA0 || c.toNat = 0x1680 ||
  (0x2000 ≤ c.toNat && c.toNat ≤ 0x200A) ||
  c.toNat = 0x2028 || c.toNat = 0x2029 || c.toNat = 0x202F || c.toNat = 0x205F ||
  c.toNat = 0x3000 || c.toNat = 0xFEFF

/-- The lower case of one character under `String.prototype.toLowerCase`, for
the characters whose lower case is an ASCII letter: the letters `A` to `Z`, the
Kelvin sign (to `k`) and the dotted capital I (to `i` and a combining dot).
Every other character has a lower case outside ASCII, or none; the module
compares lower-cased text with ASCII text only, so such a character is left as
it is. -/
def lowerChar (c : Char) : List Char :=
  if c.toNat = 0x212A then ['k']
  else if c.toNat = 0x130 then ['i', Char.ofNat 0x307]
  else [c.toLower]

/-- The method `toLowerCase()` on the characters of a string. -/
def toLowerCase (s : List Char) : List Char :=
  s.flatMap lowerChar

/-- The constant `SUPPORTED_FONT_TYPES`. -/
def SUPPORTED_FONT_TYPES : List String :=
  ["font/woff2", "font/woff", "font/ttf", "font/otf", "application/font-woff2",
   "application/font-woff", "application/x-font-ttf", "application/x-font-otf",
   "application/octet-stream"]

/-- The constant `SUPPORTED_EXTENSIONS`. -/
def SUPPORTED_EXTENSIONS : List String := [".woff2", ".woff", ".ttf", ".otf"]

/-- The function `isSupportedFontFile(file)`. -/
def isSupportedFontFile (file : UploadedFile) : Bool :=
  SUPPORTED_FONT_TYPES.contains file.type ||
  SUPPORTED_EXTENSIONS.any (fun ext => ext.data.isSuffixOf (toLowerCase file.name.data))

/-- The call `filename.replace(/\.(woff2?|[ot]tf)$/i, "")`: a final `.woff2`,
`.woff`, `.otf` or `.ttf`, in any mix of ASCII cases, is removed. -/
def stripExtension (filename : List Char) : List Char :=
  let lower := filename.map Char.toLower
  if ".woff2".data.isSuffixOf lower then filename.take (filename.length - 6)
  else if ".woff".data.isSuffixOf lower then filename.take (filename.length - 5)
  else if ".otf".data.isSuffixOf lower || ".ttf".data.isSuffixOf lower then
    filename.take (filename.length - 4)
  else filename

/-- The characters of the class `[-_\s]`. -/
def isSeparator (c : Char) : Bool :=
  c = '-' || c = '_' || isJsSpace c

/-- The call `text.split(/[-_\s]+/)`. `inRun` says that the character before
was a separator, so that the next part has been opened already. -/
def splitAux : Bool → List Char → List (List Char)
  | _, [] => [[]]
  | inRun, c :: cs =>
    if isSeparator c then
      if inRun then splitAux true cs else [] :: splitAux true cs
    else
      match splitAux false cs with
      | [] => [[c]]
      | part :: parts => (c :: part) :: parts

/-- The parts of `nameWithoutExt.split(/[-_\s]+/)`. -/
def splitParts (text : List Char) : List (List Char) :=
  splitAux false text

/-- The value of a character as a digit in the given radix, if it is one. -/
def digitValue (radix : Nat) (c : Char) : Option Nat :=
  if '0' ≤ c ∧ c ≤ '9' then
    (if c.toNat - 48 < radix then some (c.toNat - 48) else none)
  else if 'a' ≤ c ∧ c ≤ 'z' then
    (if c.toNat - 87 < radix then some (c.toNat - 87) else none)
  else if 'A' ≤ c ∧ c ≤ 'Z' then
    (if c.toNat - 55 < radix then some (c.toNat - 55) else none)
  else none

/-- The digits of the longest run of digits at the start of the text. -/
def leadingDigits (radix : Nat) : List Char → List Nat
  | [] => []
  | c :: cs =>
    match digitValue radix c with
    | some d => d :: leadingDigits radix cs
    | none => []

/-- The function `parseInt(text)` with no radix; `none` is `NaN`. Leading white
space is skipped, a sign is read, `0x` or `0X` selects radix 16, and the
longest run of digits is the number. -/
def jsParseInt (text : List Char) : Option Int :=
  let trimmed := text.dropWhile isJsSpace
  let negative := match trimmed with
    | '-' :: _ => true
    | _ => false
  let unsigned := match trimmed with
    | '-' :: rest => rest
    | '+' :: rest => rest
    | _ => trimmed
  let radix : Nat := match unsigned with
    | '0' :: 'x' :: _ => 16
    | '0' :: 'X' :: _ => 16
    | _ => 10
  let body := match unsigned with
    | '0' :: 'x' :: rest => rest
    | '0' :: 'X' :: rest => rest
    | _ => unsigned
  match leadingDigits radix body with
  | [] => none
  | d :: ds =>
    let magnitude : Nat := (d :: ds).foldl (fun acc digit => acc * radix + digit) 0
    some (if negative then -(magnitude : Int) else (magnitude : Int))

/-- The object literal `weightMap`. -/
def weightMap : List (String × Int) :=
  [("thin", 100), ("extralight", 200), ("ultralight", 200), ("light", 300),
   ("regular", 400), ("normal", 400), ("medium", 500), ("semibold", 600),
   ("demibold", 600), ("bold", 700), ("extrabold", 800), ("ultrabold", 800),
   ("black", 900), ("heavy", 900)]

/-- The names of the properties every object literal inherits from
`Object.prototype`; each of them holds a function or an object. -/
def objectPrototypeKeys : List String :=
  ["constructor", "hasOwnProperty", "isPrototypeOf", "propertyIsEnumerable",
   "toLocaleString", "toString", "valueOf", "__proto__", "__defineGetter__",
   "__defineSetter__", "__lookupGetter__", "__lookupSetter__"]

/-- A value that `weightMap[part]` can have when it is not `undefined`: a number
of the table, or what `Object.prototype` holds under an inherited name. -/
inductive WeightValue where
  | number (n : Int)
  | inherited (property : String)
deriving DecidableEq, Repr

/-- The lookup `weightMap[part]`; `none` is `undefined`. Every value found is
truthy. -/
def weightMapGet (part : String) : Option WeightValue :=
  match dictGet part weightMap with
  | some n => some (.number n)
  | none => if part ∈ objectPrototypeKeys then some (.inherited part) else none

/-- The call `part.includes(needle)`. -/
def includes (part needle : List Char) : Bool :=
  part.tails.any (fun tail => needle.isPrefixOf tail)

/-- The object `{ family, weight, style }` that `parseFontFilename` returns. -/
structure ParseResult where
  family : String
  weight : WeightValue
  style : String
deriving DecidableEq, Repr

/-- One round of the loop of `parseFontFilename`, for `parts[i]`. -/
def parseStep (i : Nat) (rawPart : List Char) (acc : ParseResult) : ParseResult :=
  let part := toLowerCase rawPart
  let numWeight := jsParseInt part
  match numWeight with
  | some n =>
    if 100 ≤ n ∧ n ≤ 900 then { acc with weight := .number n }
    else
      match weightMapGet (String.mk part) with
      | some value => { acc with weight := value }
      | none =>
        if includes part "italic".data || includes part "oblique".data then
          { acc with style := "italic" }
        else acc
  | none =>
    match weightMapGet (String.mk part) with
    | some value => { acc with weight := value }
    | none =>
      if includes part "italic".data || includes part "oblique".data then
        { acc with style := "italic" }
      else if i = 1 then { acc with family := acc.family ++ " " ++ String.mk rawPart }
      else acc

/-- The loop `for (let i = 1; i < parts.length; i++)` over the parts that
remain, the first of which is `parts[i]`. -/
def parseLoop : Nat → List (List Char) → ParseResult → ParseResult
  | _, [], acc => acc
  | i, rawPart :: rest, acc => parseLoop (i + 1) rest (parseStep i rawPart acc)

/-- The function `parseFontFilename(filename)`. -/
def parseFontFilename (filename : String) : ParseResult :=
  match splitParts (stripExtension filename.data) with
  | [] => { family := "Unknown Font", weight := .number 400, style := "normal" }
  | first :: rest =>
    parseLoop 1 rest
      { family := if first = [] then "Unknown Font" else String.mk first,
        weight := .number 400, style := "normal" }

/-- The result of `parseFontFilename` as the argument `parsed` of
`createFontMetaFromFile`, when its weight is a number. -/
def ParseResult.numeric (r : ParseResult) : Option ParsedFilename :=
  match r.weight with
  | .number n => some { family := r.family, weight := n, style := r.style }
  | .inherited _ => none

/-- The function `processUploadedFonts(files)`: `.error` carries the message of
the error it throws. `createMeta file` is the descriptor that
`createFontMetaFromFile(file)` resolves to, which depends on
`URL.createObjectURL` and `Date.now()`. The calls of `loadUploadedFont` that
follow never reject and do not change the result. -/
def processUploadedFonts (createMeta : UploadedFile → FontMeta) (files : List UploadedFile) :
    Except String (List FontMeta) :=
  let validFiles := files.filter isSupportedFontFile
  if validFiles.length = 0 then
    .error "No supported font files found. Supported formats: .woff2, .woff, .ttf, .otf"
  else .ok (validFiles.map createMeta)

/-- A file that is not a font. -/
def textFile : UploadedFile := { name := "notes.txt", type := "text/plain" }

/-- The descriptor of an upload without override, for a file whose name parses
with a numeric weight; this is `createFontMetaFromFile(file)` with the object
URL `blobUrl` and the time `now`. -/
def createUploadMeta (blobUrl : String) (now : Nat) (file : UploadedFile) : Option FontMeta :=
  (parseFontFilename file.name).numeric.map
    (fun parsed => createFontMetaFromFile file noOverride parsed blobUrl now)

/-- The descriptor builder used in the examples: the one of `italicFile`. -/
def exampleCreateMeta (file : UploadedFile) : FontMeta :=
  createFontMetaFromFile file noOverride italicParsed "blob:1" 1700

/-- What the weight of a parse result can be: a number from 100 to 900, or a
value inherited from `Object.prototype`. -/
def WeightValue.InTableOrInherited (w : WeightValue) : Prop :=
  (∃ n : Int, w = .number n ∧ 100 ≤ n ∧ n ≤ 900) ∨
  (∃ k ∈ objectPrototypeKeys, w = .inherited k)

/-! ## Properties of `getBestVariant` -/

theorem closerVariant_eq (w : Int) (prev curr : VariantMeta) :
    closerVariant w prev curr = prev ∨ closerVariant w prev curr = curr := by
  unfold closerVariant
  split
  · exact Or.inr rfl
  · exact Or.inl rfl

theorem reduceClosest_mem (w : Int) (first : VariantMeta) (rest : List VariantMeta) :
    reduceClosest w first rest ∈ first :: rest := by
  unfold reduceClosest
  induction rest generalizing first with
  | nil => simp
  | cons c rest ih =>
    simp only [List.foldl_cons]
    have h := ih (closerVariant w first c)
    rcases closerVariant_eq w first c with e | e
    · rw [e] at h ⊢
      rcases List.mem_cons.mp h with h1 | h1
      · rw [h1]; simp
      · simp [h1]
    · rw [e] at h ⊢
      exact List.mem_cons_of_mem _ h

/-- The fold of `closerVariant` returns the earliest element at minimal
distance: everything before it is strictly farther, everything after it is at
least as far. -/
theorem foldl_closerVariant_split (w : Int) (rest : List VariantMeta) :
    ∀ (acc : VariantMeta) (pre post : List VariantMeta),
      (∀ v ∈ pre, weightDistance acc w < weightDistance v w) →
      (∀ v ∈ post, weightDistance acc w ≤ weightDistance v w) →
      ∃ pre2 post2,
        pre ++ acc :: post ++ rest = pre2 ++ rest.foldl (closerVariant w) acc :: post2 ∧
        (∀ v ∈ pre2,
          weightDistance (rest.foldl (closerVariant w) acc) w < weightDistance v w) ∧
        (∀ v ∈ post2,
          weightDistance (rest.foldl (closerVariant w) acc) w ≤ weightDistance v w) := by
  induction rest with
  | nil =>
    intro acc pre post hpre hpost
    exact ⟨pre, post, by simp, hpre, hpost⟩
  | cons c rest ih =>
    intro acc pre post hpre hpost
    simp only [List.foldl_cons]
    by_cases hc : weightDistance c w < weightDistance acc w
    · have e : closerVariant w acc c = c := by simp [closerVariant, hc]
      rw [e]
      obtain ⟨pre2, post2, h1, h2, h3⟩ := ih c (pre ++ acc :: post) [] (by
        intro v hv
        rcases List.mem_append.mp hv with hv | hv
        · exact lt_trans hc (hpre v hv)
        · rcases List.mem_cons.mp hv with hv | hv
          · rw [hv]; exact hc
          · exact lt_of_lt_of_le hc (hpost v hv)) (by simp)
      refine ⟨pre2, post2, ?_, h2, h3⟩
      rw [← h1]; simp
    · have e : closerVariant w acc c = acc := by simp [closerVariant, hc]
      rw [e]
      obtain ⟨pre2, post2, h1, h2, h3⟩ := ih acc pre (post ++ [c]) hpre (by
        intro v hv
        rcases List.mem_append.mp hv with hv | hv
        · exact hpost v hv
        · simp only [List.mem_singleton] at hv
          rw [hv]; exact not_lt.mp hc)
      refine ⟨pre2, post2, ?_, h2, h3⟩
      rw [← h1]; simp

theorem reduceClosest_split (w : Int) (first : VariantMeta) (rest : List VariantMeta) :
    ∃ pre post, first :: rest = pre ++ reduceClosest w first rest :: post ∧
      (∀ v ∈ pre, weightDistance (reduceClosest w first rest) w < weightDistance v w) ∧
      (∀ v ∈ post, weightDistance (reduceClosest w first rest) w ≤ weightDistance v w) := by
  have h := foldl_closerVariant_split w rest first [] [] (by simp) (by simp)
  simpa [reduceClosest] using h

/-- Unfolding of `getBestVariant` on a descriptor with a variants list. -/
theorem getBestVariant_some (fm : FontMeta) (l : List VariantMeta) (w : Int) (s : String)
    (hv : fm.variants = some l) (hne : l ≠ []) :
    getBestVariant (some fm) w s =
      match l.find? (fun v => v.weight == w && v.style == s) with
      | some exactMatch => exactMatch
      | none =>
        match l.filter (fun v => v.style == s) with
        | first :: rest => reduceClosest w first rest
        | [] =>
          match l.find? (fun v => v.weight == w && v.style == "normal") with
          | some normalStyle => normalStyle
          | none => l.head hne := by
  cases l with
  | nil => exact absurd rfl hne
  | cons v0 vs => simp only [getBestVariant, hv, List.head_cons]

/-- C1: for a descriptor whose variants list is non-empty, and for every
desired weight and style, `getBestVariant` returns an element of the variants
list. -/
theorem getBestVariant_mem (fm : FontMeta) (l : List VariantMeta) (w : Int) (s : String)
    (hv : fm.variants = some l) (hne : l ≠ []) :
    getBestVariant (some fm) w s ∈ l := by
  rw [getBestVariant_some fm l w s hv hne]
  split
  · exact List.mem_of_find?_eq_some (by assumption)
  · split
    · rename_i first rest hf
      have h := reduceClosest_mem w first rest
      rw [← hf] at h
      exact (List.mem_filter.mp h).1
    · split
      · exact List.mem_of_find?_eq_some (by assumption)
      · exact List.head_mem hne

theorem getBestVariant_mem_witness :
    exampleMeta.variants = some [⟨400, "normal"⟩, ⟨400, "italic"⟩, ⟨700, "normal"⟩] ∧
      getBestVariant (some exampleMeta) 700 "italic" ∈
        [(⟨400, "normal"⟩ : VariantMeta), ⟨400, "italic"⟩, ⟨700, "normal"⟩] :=
  ⟨rfl, getBestVariant_mem exampleMeta _ 700 "italic" rfl (by simp)⟩

/-- A difference of at most 2^53 in magnitude is a double, so that its distance
is the exact one. -/
theorem roundToDouble_exact (x : Int) (h : |x| ≤ 2 ^ 53) : roundToDouble x = x := by
  have hn : x.natAbs ≤ 2 ^ 53 := by
    have h2 : ((x.natAbs : Int)) ≤ ((2 ^ 53 : Nat) : Int) := by
      rw [← Int.abs_eq_natAbs]
      simpa using h
    exact Int.ofNat_le.mp h2
  unfold roundToDouble
  rw [if_pos hn]

theorem weightDistance_exact (v : VariantMeta) (w : Int) (h : |v.weight - w| ≤ 2 ^ 53) :
    weightDistance v w = |v.weight - w| := by
  unfold weightDistance
  rw [roundToDouble_exact _ h]

/-- The product of a double below one and a length rounds to a double below
the length. -/
theorem roundToDouble_product_lt (m e n : Nat) (hm : m < 2 ^ e) (hs : m < 2 ^ 53)
    (hn : 0 < n) : (roundToDouble (Int.ofNat (m * n))).toNat < n * 2 ^ e := by
  have hP : m * n < n * 2 ^ e := by
    rw [Nat.mul_comm m n]
    exact Nat.mul_lt_mul_of_pos_left hm hn
  have hP53 : m * n < 2 ^ 53 * n := Nat.mul_lt_mul_of_pos_right hs hn
  have hle : m * n + n ≤ n * 2 ^ e := by
    have : (m + 1) * n ≤ 2 ^ e * n := Nat.mul_le_mul_right n hm
    rw [Nat.mul_comm n (2 ^ e)]
    calc m * n + n = (m + 1) * n := by ring
      _ ≤ 2 ^ e * n := this
  unfold roundToDouble
  have hnat : (Int.ofNat (m * n)).natAbs = m * n := rfl
  have hnn : ¬ (Int.ofNat (m * n) < 0) := Int.not_lt.mpr (Int.ofNat_nonneg _)
  rw [hnat]
  by_cases hsmall : m * n ≤ 2 ^ 53
  · rw [if_pos hsmall]
    exact hP
  · rw [if_neg hsmall]
    rw [if_neg hnn]
    cases hfind : (List.range 972).find? (fun shift => decide (m * n < 2 ^ (53 + shift))) with
    | none =>
      have h := List.find?_eq_none.mp hfind 971 (List.mem_range.mpr (by decide))
      have h2 : ¬ (m * n < 2 ^ (53 + 971)) := fun hlt => h (decide_eq_true hlt)
      rw [show 53 + 971 = 1024 from rfl] at h2
      exact lt_of_le_of_lt (Nat.le_of_not_lt h2) hP
    | some shift =>
      simp only [Int.ofNat_eq_coe, Int.toNat_ofNat]
      obtain ⟨hlt, _, hmin⟩ := List.find?_range_eq_some.mp hfind
      simp only [decide_eq_true_eq] at hlt
      have hpos : shift ≠ 0 := by
        intro h0
        rw [h0] at hlt
        exact hsmall (le_of_lt hlt)
      obtain ⟨t, rfl⟩ := Nat.exists_eq_succ_of_ne_zero hpos
      have hprev := hmin t (Nat.lt_succ_self t)
      simp only [Bool.not_eq_true', decide_eq_false_iff_not, not_lt] at hprev
      have hpow : 2 ^ (t + 1) = 2 * 2 ^ t := by ring
      have hhalf : 2 ^ t < n := by
        have h1 : 2 ^ 53 * 2 ^ t < 2 ^ 53 * n := by
          rw [← pow_add]
          exact lt_of_le_of_lt hprev hP53
        exact Nat.lt_of_mul_lt_mul_left h1
      have hdm := Nat.div_add_mod (m * n) (2 ^ (t + 1))
      have hmod := Nat.mod_lt (m * n) (show 0 < 2 ^ (t + 1) by positivity)
      simp only [Nat.succ_eq_add_one, Nat.add_sub_cancel]
      generalize hk : m * n / 2 ^ (t + 1) = k at hdm ⊢
      generalize hr : m * n % 2 ^ (t + 1) = r at hdm hmod ⊢
      rw [Nat.mul_comm] at hdm
      split
      · rename_i hup
        have hr2 : 2 ^ t ≤ r := by
          rcases hup with h | h
          · exact le_of_lt h
          · exact le_of_eq h.1.symm
        have : (k + 1) * 2 ^ (t + 1) = k * 2 ^ (t + 1) + 2 * 2 ^ t := by rw [hpow]; ring
        rw [this]
        omega
      · omega

/-- Up to 2^53 the text of a number that is not negative is its decimal
expansion. -/
theorem numberToString_ofNat (n : Nat) (h : n ≤ 2 ^ 53) :
    numberToString (n : Int) = Nat.repr n := by
  unfold numberToString
  rw [if_neg (Int.not_lt.mpr (Int.ofNat_nonneg n))]
  show positiveText n = Nat.repr n
  unfold positiveText
  rw [if_pos h]

/-- Up to 2^53 in magnitude the text of a negative number is a minus sign and
the decimal expansion of the magnitude. -/
theorem numberToString_neg (w : Int) (hneg : w < 0) (h : w.natAbs ≤ 2 ^ 53) :
    numberToString w = "-" ++ Nat.repr w.natAbs := by
  unfold numberToString
  rw [if_pos hneg]
  unfold positiveText
  rw [if_pos h]

/-- When some variant has the desired style, the result has that style. -/
theorem getBestVariant_style (fm : FontMeta) (l : List VariantMeta) (w : Int) (s : String)
    (hv : fm.variants = some l) (hs : ∃ v ∈ l, v.style = s) :
    (getBestVariant (some fm) w s).style = s := by
  obtain ⟨v1, hv1, hv1s⟩ := hs
  have hne : l ≠ [] := List.ne_nil_of_mem hv1
  rw [getBestVariant_some fm l w s hv hne]
  split
  · rename_i e he
    have hp := List.find?_some he
    simp only [Bool.and_eq_true, beq_iff_eq] at hp
    exact hp.2
  · split
    · rename_i first rest hf
      have hmem := reduceClosest_mem w first rest
      rw [← hf] at hmem
      simpa using (List.mem_filter.mp hmem).2
    · rename_i hf
      have h := List.filter_eq_nil_iff.mp hf v1 hv1
      exact absurd (by simpa using hv1s) h

/-- When some variant has the desired style and the variants of that style are
within 2^53 of the desired weight, the result splits the variants list into the
part before it, where every variant of that style is strictly farther from the
desired weight, and the part after it, where every variant of that style is at
least as far. -/
theorem getBestVariant_split (fm : FontMeta) (l : List VariantMeta) (w : Int) (s : String)
    (hv : fm.variants = some l) (hs : ∃ v ∈ l, v.style = s)
    (hb : ∀ v ∈ l, v.style = s → |v.weight - w| ≤ 2 ^ 53) :
    ∃ pre post, l = pre ++ getBestVariant (some fm) w s :: post ∧
      (getBestVariant (some fm) w s).style = s ∧
      (∀ v ∈ pre, v.style = s →
        |(getBestVariant (some fm) w s).weight - w| < |v.weight - w|) ∧
      (∀ v ∈ post, v.style = s →
        |(getBestVariant (some fm) w s).weight - w| ≤ |v.weight - w|) := by
  obtain ⟨v1, hv1, hv1s⟩ := hs
  have hne : l ≠ [] := List.ne_nil_of_mem hv1
  rw [getBestVariant_some fm l w s hv hne]
  split
  · rename_i e he
    obtain ⟨hp, pre, post, hl, hpre⟩ := List.find?_eq_some.mp he
    simp only [Bool.and_eq_true, beq_iff_eq] at hp
    refine ⟨pre, post, hl, hp.2, ?_, ?_⟩
    · intro v hvp hvs
      have h := hpre v hvp
      simp only [Bool.not_eq_true', Bool.and_eq_false_iff, beq_eq_false_iff_ne, ne_eq] at h
      rcases h with h | h
      · rw [hp.1, sub_self, abs_zero]
        exact abs_pos.mpr (sub_ne_zero.mpr h)
      · exact absurd hvs h
    · intro v _ _
      rw [hp.1, sub_self, abs_zero]
      exact abs_nonneg _
  · split
    · rename_i first rest hf
      obtain ⟨pre, post, hsplit, hpre, hpost⟩ := reduceClosest_split w first rest
      rw [← hf] at hsplit
      have hmem : reduceClosest w first rest ∈ l.filter (fun v => v.style == s) := by
        rw [hsplit]; simp
      have hstyle : (reduceClosest w first rest).style = s := by
        simpa using (List.mem_filter.mp hmem).2
      have hr : weightDistance (reduceClosest w first rest) w =
          |(reduceClosest w first rest).weight - w| :=
        weightDistance_exact _ w (hb _ (List.mem_filter.mp hmem).1 hstyle)
      obtain ⟨l1, l2, hl, h1, h2⟩ := List.filter_eq_append_iff.mp hsplit
      obtain ⟨m1, m2, hm, hm1, _, hm2⟩ := List.filter_eq_cons_iff.mp h2
      refine ⟨l1 ++ m1, m2, by rw [hl, hm]; simp, hstyle, ?_, ?_⟩
      · intro v hvm hvs
        have hvl : v ∈ l := by
          rw [hl, hm]
          rcases List.mem_append.mp hvm with h | h
          · exact List.mem_append_left _ h
          · exact List.mem_append_right _ (List.mem_append_left _ h)
        rcases List.mem_append.mp hvm with h | h
        · have := hpre v (by rw [← h1]; exact List.mem_filter.mpr ⟨h, by simpa using hvs⟩)
          rw [hr, weightDistance_exact v w (hb v hvl hvs)] at this
          exact this
        · exact absurd (by simpa using hvs) (hm1 v h)
      · intro v hvm hvs
        have hvl : v ∈ l := by
          rw [hl, hm]
          exact List.mem_append_right _
            (List.mem_append_right _ (List.mem_cons_of_mem _ hvm))
        have := hpost v (by rw [← hm2]; exact List.mem_filter.mpr ⟨hvm, by simpa using hvs⟩)
        rw [hr, weightDistance_exact v w (hb v hvl hvs)] at this
        exact this
    · rename_i hf
      have h := List.filter_eq_nil_iff.mp hf v1 hv1
      exact absurd (by simpa using hv1s) h

/-- C2: if at least one variant has the desired style, the result has that
style, whatever the weights of the variants of the other style. -/
theorem getBestVariant_keeps_style (fm : FontMeta) (l : List VariantMeta) (w : Int) (s : String)
    (hv : fm.variants = some l) (hs : ∃ v ∈ l, v.style = s) :
    (getBestVariant (some fm) w s).style = s :=
  getBestVariant_style fm l w s hv hs

theorem getBestVariant_keeps_style_witness :
    (∃ v ∈ [(⟨400, "normal"⟩ : VariantMeta), ⟨400, "italic"⟩, ⟨700, "normal"⟩],
        v.style = "italic") ∧
      (getBestVariant (some exampleMeta) 700 "italic").style = "italic" ∧
      getBestVariant (some exampleMeta) 700 "italic" = ⟨400, "italic"⟩ ∧
      getBestVariant (some exampleMeta) 700 "italic" ≠ ⟨700, "normal"⟩ :=
  ⟨⟨⟨400, "italic"⟩, by simp, rfl⟩,
   getBestVariant_keeps_style exampleMeta _ 700 "italic" rfl ⟨⟨400, "italic"⟩, by simp, rfl⟩,
   by decide, by decide⟩

/-- C3, as the code has it: when some variant has the desired style and every
variant of that style is within 2^53 of the desired weight (so that the
subtraction of the code is exact), the result is the earliest variant of that
style at minimal absolute weight difference: it lies in the variants list, has
the desired style, every variant of that style before it is strictly farther
from the desired weight and every one after it is at least as far; and when the
list holds a variant with exactly the desired weight and style, the first such
variant is the result. -/
theorem getBestVariant_first_closest (fm : FontMeta) (l : List VariantMeta) (w : Int)
    (s : String) (hv : fm.variants = some l) (hs : ∃ v ∈ l, v.style = s)
    (hb : ∀ v ∈ l, v.style = s → |v.weight - w| ≤ 2 ^ 53) :
    (∃ pre post, l = pre ++ getBestVariant (some fm) w s :: post ∧
      (getBestVariant (some fm) w s).style = s ∧
      (∀ v ∈ pre, v.style = s →
        |(getBestVariant (some fm) w s).weight - w| < |v.weight - w|) ∧
      (∀ v ∈ post, v.style = s →
        |(getBestVariant (some fm) w s).weight - w| ≤ |v.weight - w|)) ∧
    (∀ e, l.find? (fun v => v.weight == w && v.style == s) = some e →
      getBestVariant (some fm) w s = e) := by
  refine ⟨getBestVariant_split fm l w s hv hs hb, ?_⟩
  intro e he
  obtain ⟨v1, hv1, _⟩ := hs
  rw [getBestVariant_some fm l w s hv (List.ne_nil_of_mem hv1), he]

theorem getBestVariant_first_closest_witness :
    (∃ v ∈ [(⟨300, "normal"⟩ : VariantMeta), ⟨500, "normal"⟩, ⟨300, "italic"⟩],
        v.style = "normal") ∧
      (∀ v ∈ [(⟨300, "normal"⟩ : VariantMeta), ⟨500, "normal"⟩, ⟨300, "italic"⟩],
        v.style = "normal" → |v.weight - 400| ≤ 2 ^ 53) ∧
      getBestVariant (some tieMeta) 400 "normal" = ⟨300, "normal"⟩ ∧
      (∃ pre post,
        [(⟨300, "normal"⟩ : VariantMeta), ⟨500, "normal"⟩, ⟨300, "italic"⟩] =
          pre ++ getBestVariant (some tieMeta) 400 "normal" :: post ∧
        (getBestVariant (some tieMeta) 400 "normal").style = "normal" ∧
        (∀ v ∈ pre, v.style = "normal" →
          |(getBestVariant (some tieMeta) 400 "normal").weight - 400| < |v.weight - 400|) ∧
        (∀ v ∈ post, v.style = "normal" →
          |(getBestVariant (some tieMeta) 400 "normal").weight - 400| ≤ |v.weight - 400|)) :=
  ⟨⟨⟨300, "normal"⟩, by simp, rfl⟩, by decide, by decide,
   (getBestVariant_first_closest tieMeta _ 400 "normal" rfl ⟨⟨300, "normal"⟩, by simp, rfl⟩
      (by decide)).1⟩

set_option maxRecDepth 100000 in
/-- C3 as stated fails: for the variants (2^53, normal) and (2^53 - 1, normal)
and the desired weight -1 the two differences, 2^53 + 1 and 2^53, are the same
double 2^53, so the reduce keeps the first variant, although the second is
strictly nearer to the desired weight. -/
theorem getBestVariant_first_closest_counterexample :
    hugeMeta.variants =
      some [⟨9007199254740992, "normal"⟩, ⟨9007199254740991, "normal"⟩] ∧
    getBestVariant (some hugeMeta) (-1) "normal" = ⟨9007199254740992, "normal"⟩ ∧
    |(9007199254740991 : Int) - (-1)| < |(9007199254740992 : Int) - (-1)| ∧
    ¬ (∀ v ∈ [(⟨9007199254740992, "normal"⟩ : VariantMeta), ⟨9007199254740991, "normal"⟩],
        v.style = "normal" →
        |(getBestVariant (some hugeMeta) (-1) "normal").weight - (-1)| ≤ |v.weight - (-1)|) := by
  decide

/-- C4: for a non-empty variants list in which no variant has the desired
style, the result is the first variant with the desired weight and style
`"normal"` when there is one, and the first element of the list otherwise. -/
theorem getBestVariant_other_style (fm : FontMeta) (v0 : VariantMeta) (vs : List VariantMeta)
    (w : Int) (s : String) (hv : fm.variants = some (v0 :: vs))
    (hs : ∀ v ∈ v0 :: vs, v.style ≠ s) :
    getBestVariant (some fm) w s =
      ((v0 :: vs).find? (fun v => v.weight == w && v.style == "normal")).getD v0 := by
  have h1 : (v0 :: vs).find? (fun v => v.weight == w && v.style == s) = none := by
    rw [List.find?_eq_none]
    intro v hvm
    have := hs v hvm
    simp [this]
  have h2 : (v0 :: vs).filter (fun v => v.style == s) = [] := by
    rw [List.filter_eq_nil_iff]
    intro v hvm
    have := hs v hvm
    simp [this]
  rw [getBestVariant_some fm (v0 :: vs) w s hv (by simp), h1, h2]
  cases (v0 :: vs).find? (fun v => v.weight == w && v.style == "normal") <;> simp

theorem getBestVariant_other_style_witness :
    (∀ v ∈ [(⟨400, "normal"⟩ : VariantMeta), ⟨700, "normal"⟩], v.style ≠ "italic") ∧
      getBestVariant (some normalOnlyMeta) 700 "italic" = ⟨700, "normal"⟩ ∧
      getBestVariant (some normalOnlyMeta) 500 "italic" = ⟨400, "normal"⟩ ∧
      getBestVariant (some normalOnlyMeta) 700 "italic" =
        ([(⟨400, "normal"⟩ : VariantMeta), ⟨700, "normal"⟩].find?
          (fun v => v.weight == 700 && v.style == "normal")).getD ⟨400, "normal"⟩ :=
  ⟨by decide, by decide, by decide,
   getBestVariant_other_style normalOnlyMeta _ _ 700 "italic" rfl (by decide)⟩

/-- C5: `getBestVariant` is total, and for a descriptor that is `null` or
`undefined`, that has no `variants` field, or whose variants list is empty, it
returns `{ weight: 400, style: "normal" }` for every desired weight and style. -/
theorem getBestVariant_default (w : Int) (s : String) :
    getBestVariant none w s = ⟨400, "normal"⟩ ∧
    (∀ fm : FontMeta, fm.variants = none → getBestVariant (some fm) w s = ⟨400, "normal"⟩) ∧
    (∀ fm : FontMeta, fm.variants = some [] →
      getBestVariant (some fm) w s = ⟨400, "normal"⟩) := by
  refine ⟨rfl, ?_, ?_⟩
  · intro fm h
    simp [getBestVariant, h, defaultVariant]
  · intro fm h
    simp [getBestVariant, h, defaultVariant]

theorem getBestVariant_default_witness :
    getBestVariant (some { exampleMeta with variants := none }) 700 "italic" = ⟨400, "normal"⟩ ∧
    getBestVariant (some { exampleMeta with variants := some [] }) 700 "italic" =
      ⟨400, "normal"⟩ :=
  ⟨(getBestVariant_default 700 "italic").2.1 _ rfl,
   (getBestVariant_default 700 "italic").2.2 _ rfl⟩

/-! ## Dictionary lemmas -/

theorem dictGet_dictDelete_self {β : Type} (k : String) (m : List (String × β)) :
    dictGet k (dictDelete k m) = none := by
  induction m with
  | nil => rfl
  | cons e m ih =>
    obtain ⟨k1, v⟩ := e
    by_cases h : k1 = k
    · simpa [dictDelete, List.filter_cons, h] using ih
    · simpa [dictDelete, List.filter_cons, h, dictGet] using ih

theorem dictGet_dictDelete_ne {β : Type} (k k2 : String) (m : List (String × β)) (hne : k2 ≠ k) :
    dictGet k2 (dictDelete k m) = dictGet k2 m := by
  induction m with
  | nil => rfl
  | cons e m ih =>
    obtain ⟨k1, v⟩ := e
    by_cases h : k1 = k
    · subst h
      simpa [dictDelete, List.filter_cons, dictGet, Ne.symm hne] using ih
    · by_cases h3 : k1 = k2
      · subst h3
        simp [dictDelete, List.filter_cons, h, dictGet]
      · simpa [dictDelete, List.filter_cons, h, dictGet, h3] using ih

theorem dictGet_dictSet_self {β : Type} (k : String) (v : β) (m : List (String × β)) :
    dictGet k (dictSet k v m) = some v := by
  simp [dictSet, dictGet]

theorem dictGet_dictSet_ne {β : Type} (k k2 : String) (v : β) (m : List (String × β))
    (hne : k2 ≠ k) : dictGet k2 (dictSet k v m) = dictGet k2 m := by
  have h : k ≠ k2 := fun e => hne e.symm
  simp [dictSet, dictGet, h, dictGet_dictDelete_ne k k2 m hne]

theorem mem_setAdd (k k2 : String) (l : List String) :
    k2 ∈ setAdd k l ↔ k2 = k ∨ k2 ∈ l := by
  unfold setAdd
  split
  · constructor
    · exact Or.inr
    · rintro (h | h)
      · rw [h]; assumption
      · exact h
  · simp [or_comm]

/-! ## Lemmas about `loadFont` and `settleLoad` -/

/-- A call of `loadFont` either leaves the state as it is, or reaches the inner
body with a cache key that is neither loaded nor in flight and with the first
truthy locator of its three lookups. -/
theorem loadFont_cases (env : FontFaceEnv) (fontMeta : Option FontMeta) (w : Int) (s : String)
    (st : LoaderState) :
    (loadFont env fontMeta w s st).2 = st ∨
    ∃ fm files u, fontMeta = some fm ∧ fm.files = some files ∧
      createFontKey fm.family w s ∉ st.loadedFonts ∧
      dictGet (createFontKey fm.family w s) st.loadingPromises = none ∧
      jsOr (dictGet (getVariantKey w s) files)
        (jsOr (dictGet (getVariantKey 400 s) files)
          (dictGet (getVariantKey 400 "normal") files)) = some u ∧
      u ≠ "" ∧
      loadFont env fontMeta w s st =
        startLoad env fm.family w s (createFontKey fm.family w s) u st := by
  cases fontMeta with
  | none => exact Or.inl rfl
  | some fm =>
    cases hf : fm.files with
    | none => left; simp [loadFont, hf]
    | some files =>
      by_cases hl : createFontKey fm.family w s ∈ st.loadedFonts
      · left; simp [loadFont, hf, hl]
      · cases hp : dictGet (createFontKey fm.family w s) st.loadingPromises with
        | some p => left; simp [loadFont, hf, hl, hp]
        | none =>
          cases hn : (!truthy (dictGet (getVariantKey w s) files) &&
              !truthy (dictGet (getVariantKey 400 s) files) &&
              !truthy (dictGet (getVariantKey 400 "normal") files)) with
          | true => left; simp only [loadFont, hf, hl, hp, hn, if_true, if_false]
          | false =>
            cases hu : jsOr (dictGet (getVariantKey w s) files)
                (jsOr (dictGet (getVariantKey 400 s) files)
                  (dictGet (getVariantKey 400 "normal") files)) with
            | none =>
              left
              simp only [loadFont, hf, hl, hp, hn, hu, if_false, Bool.false_eq_true]
            | some u =>
              by_cases he : u = ""
              · left
                simp only [loadFont, hf, hl, hp, hn, hu, he, if_true, if_false,
                  Bool.false_eq_true]
              · right
                refine ⟨fm, files, u, rfl, hf, hl, hp, hu, he, ?_⟩
                simp only [loadFont, hf, hl, hp, hn, hu, he, if_false, Bool.false_eq_true]

theorem pending_key_ne (st : LoaderState) (hinv : LoaderInv st) (key : String)
    (hp : dictGet key st.loadingPromises = none) (t : PendingLoad) (ht : t ∈ st.pending) :
    t.cacheKey ≠ key := by
  intro h
  have := hinv.inFlight t ht
  rw [h, hp] at this
  exact Option.noConfusion this

theorem startLoad_inv (env : FontFaceEnv) (family : String) (w : Int) (s key u : String)
    (st : LoaderState) (hinv : LoaderInv st) (hl : key ∉ st.loadedFonts)
    (hp : dictGet key st.loadingPromises = none) :
    LoaderInv (startLoad env family w s key u st).2 := by
  have hne := pending_key_ne st hinv key hp
  have failed : LoaderInv
      { st with
        loadingPromises := dictSet key st.nextPromise (dictDelete key st.loadingPromises)
        settled := (st.nextPromise, false) :: st.settled
        nextPromise := st.nextPromise + 1 } := by
    refine ⟨?_, ?_, hinv.notLoaded, hinv.distinct, hinv.distinctPromise⟩
    · intro t ht
      exact Nat.lt_succ_of_lt (hinv.fresh t ht)
    · intro t ht
      show dictGet t.cacheKey (dictSet key st.nextPromise (dictDelete key st.loadingPromises)) = _
      rw [dictGet_dictSet_ne _ _ _ _ (hne t ht), dictGet_dictDelete_ne _ _ _ (hne t ht)]
      exact hinv.inFlight t ht
  cases env with
  | unsupported => exact failed
  | constructorThrows => exact failed
  | supported =>
    refine ⟨?_, ?_, ?_, ?_, ?_⟩
    · intro t ht
      rcases List.mem_append.mp ht with h | h
      · exact Nat.lt_succ_of_lt (hinv.fresh t h)
      · rw [List.mem_singleton.mp h]
        exact Nat.lt_succ_self _
    · intro t ht
      show dictGet t.cacheKey (dictSet key st.nextPromise st.loadingPromises) = _
      rcases List.mem_append.mp ht with h | h
      · rw [dictGet_dictSet_ne _ _ _ _ (hne t h)]
        exact hinv.inFlight t h
      · rw [List.mem_singleton.mp h]
        exact dictGet_dictSet_self _ _ _
    · intro t ht
      rcases List.mem_append.mp ht with h | h
      · exact hinv.notLoaded t h
      · rw [List.mem_singleton.mp h]
        exact hl
    · show ((st.pending ++ [_]).map PendingLoad.cacheKey).Nodup
      rw [List.map_append, List.nodup_append]
      refine ⟨hinv.distinct, by simp, ?_⟩
      intro a ha hb
      obtain ⟨t, ht, rfl⟩ := List.mem_map.mp ha
      simp only [List.map_cons, List.map_nil, List.mem_singleton] at hb
      exact hne t ht hb
    · show ((st.pending ++ [_]).map PendingLoad.promise).Nodup
      rw [List.map_append, List.nodup_append]
      refine ⟨hinv.distinctPromise, by simp, ?_⟩
      intro a ha hb
      obtain ⟨t, ht, rfl⟩ := List.mem_map.mp ha
      simp only [List.map_cons, List.map_nil, List.mem_singleton] at hb
      exact absurd hb (Nat.ne_of_lt (hinv.fresh t ht))

theorem loadFont_inv (env : FontFaceEnv) (fontMeta : Option FontMeta) (w : Int) (s : String)
    (st : LoaderState) (hinv : LoaderInv st) : LoaderInv (loadFont env fontMeta w s st).2 := by
  rcases loadFont_cases env fontMeta w s st with h | ⟨fm, files, u, _, _, hl, hp, _, _, h⟩
  · rw [h]; exact hinv
  · rw [h]; exact startLoad_inv env fm.family w s _ u st hinv hl hp

/-- Two suspended loads with different handles have different cache keys. -/
theorem pending_key_ne_of_promise_ne (st : LoaderState) (hinv : LoaderInv st)
    (t u : PendingLoad) (ht : t ∈ st.pending) (hu : u ∈ st.pending)
    (hne : u.promise ≠ t.promise) : u.cacheKey ≠ t.cacheKey := by
  intro h
  have h1 := hinv.inFlight t ht
  have h2 := hinv.inFlight u hu
  rw [h, h1] at h2
  exact hne (Option.some.inj h2).symm

theorem settleLoad_inv (p : Nat) (ok : Bool) (st : LoaderState) (hinv : LoaderInv st) :
    LoaderInv (settleLoad p ok st) := by
  unfold settleLoad
  cases hfind : st.pending.find? (fun t => t.promise == p) with
  | none => exact hinv
  | some t =>
    have htm : t ∈ st.pending := List.mem_of_find?_eq_some hfind
    have htp : t.promise = p := by simpa using List.find?_some hfind
    have hsub : ∀ u ∈ st.pending.filter (fun u => u.promise != p),
        u ∈ st.pending ∧ u.cacheKey ≠ t.cacheKey := by
      intro u hu
      obtain ⟨hu1, hu2⟩ := List.mem_filter.mp hu
      refine ⟨hu1, pending_key_ne_of_promise_ne st hinv t u htm hu1 ?_⟩
      rw [htp]
      simpa using hu2
    have hdist : ((st.pending.filter (fun u => u.promise != p)).map
        PendingLoad.cacheKey).Nodup :=
      List.Nodup.sublist (List.Sublist.map _ (List.filter_sublist _)) hinv.distinct
    have hdistp : ((st.pending.filter (fun u => u.promise != p)).map
        PendingLoad.promise).Nodup :=
      List.Nodup.sublist (List.Sublist.map _ (List.filter_sublist _)) hinv.distinctPromise
    cases ok with
    | true =>
      refine ⟨?_, ?_, ?_, hdist, hdistp⟩
      · intro u hu
        exact hinv.fresh u (hsub u hu).1
      · intro u hu
        show dictGet u.cacheKey (dictDelete t.cacheKey st.loadingPromises) = _
        rw [dictGet_dictDelete_ne _ _ _ (hsub u hu).2]
        exact hinv.inFlight u (hsub u hu).1
      · intro u hu
        show u.cacheKey ∉ setAdd t.cacheKey st.loadedFonts
        rw [mem_setAdd]
        rintro (h | h)
        · exact (hsub u hu).2 h
        · exact hinv.notLoaded u (hsub u hu).1 h
    | false =>
      refine ⟨?_, ?_, ?_, hdist, hdistp⟩
      · intro u hu
        exact hinv.fresh u (hsub u hu).1
      · intro u hu
        show dictGet u.cacheKey (dictDelete t.cacheKey st.loadingPromises) = _
        rw [dictGet_dictDelete_ne _ _ _ (hsub u hu).2]
        exact hinv.inFlight u (hsub u hu).1
      · intro u hu
        exact hinv.notLoaded u (hsub u hu).1

theorem initial_inv : LoaderInv LoaderState.initial :=
  ⟨by simp [LoaderState.initial], by simp [LoaderState.initial],
   by simp [LoaderState.initial], by simp [LoaderState.initial],
   by simp [LoaderState.initial]⟩

theorem stepLoader_inv (st : LoaderState) (ev : LoaderEvent) (hinv : LoaderInv st) :
    LoaderInv (stepLoader st ev) := by
  cases ev with
  | call env fontMeta w s => exact loadFont_inv env fontMeta w s st hinv
  | settle p ok => exact settleLoad_inv p ok st hinv

theorem runLoader_inv (events : List LoaderEvent) :
    ∀ st : LoaderState, LoaderInv st → LoaderInv (runLoader st events) := by
  induction events with
  | nil => intro st h; exact h
  | cons ev events ih =>
    intro st h
    exact ih _ (stepLoader_inv st ev h)

theorem jsOr_chain (a b c : Option String) (u : String) (h : jsOr a (jsOr b c) = some u) :
    a = some u ∨ (truthy a = false ∧ b = some u) ∨
      (truthy a = false ∧ truthy b = false ∧ c = some u) := by
  unfold jsOr at h
  cases ha : truthy a with
  | true => rw [ha] at h; exact Or.inl (by simpa using h)
  | false =>
    rw [ha] at h
    simp only [Bool.false_eq_true, if_false] at h
    cases hb : truthy b with
    | true => rw [hb] at h; exact Or.inr (Or.inl ⟨rfl, by simpa using h⟩)
    | false =>
      rw [hb] at h
      exact Or.inr (Or.inr ⟨rfl, rfl, by simpa using h⟩)

theorem createFontKey_weight_ne (f s : String) (w1 w2 : Int)
    (h : numberToString w1 ≠ numberToString w2) :
    createFontKey f w1 s ≠ createFontKey f w2 s := by
  intro e
  apply h
  have e2 := String.ext_iff.mp e
  simp only [createFontKey, String.data_append, List.append_assoc,
    List.append_cancel_left_eq, List.append_cancel_right_eq] at e2
  exact String.ext e2

theorem getVariantKey_ne_toString (w1 w2 : Int) (s : String)
    (h : getVariantKey w1 s ≠ getVariantKey w2 s) :
    numberToString w1 ≠ numberToString w2 := by
  intro e
  apply h
  simp [getVariantKey, e]

theorem createFontKey_style_ne (f : String) (w1 w2 : Int) :
    createFontKey f w1 "normal" ≠ createFontKey f w2 "italic" := by
  intro e
  have e2 := congrArg List.reverse (String.ext_iff.mp e)
  simp [createFontKey, String.data_append] at e2

/-- A suspended load stays suspended under every event other than the
settlement of its own promise. -/
theorem pending_persists_step (st : LoaderState) (t : PendingLoad) (ht : t ∈ st.pending)
    (ev : LoaderEvent) (hev : ∀ ok, ev ≠ .settle t.promise ok) :
    t ∈ (stepLoader st ev).pending := by
  cases ev with
  | call env fontMeta w s =>
    show t ∈ (loadFont env fontMeta w s st).2.pending
    rcases loadFont_cases env fontMeta w s st with h | ⟨fm, _, u, _, _, _, _, _, _, h⟩
    · rw [h]; exact ht
    · rw [h]
      cases env with
      | unsupported => exact ht
      | constructorThrows => exact ht
      | supported => exact List.mem_append_left _ ht
  | settle q ok =>
    have hq : t.promise ≠ q := by
      intro e
      exact hev ok (by rw [e])
    show t ∈ (settleLoad q ok st).pending
    unfold settleLoad
    cases st.pending.find? (fun t => t.promise == q) with
    | none => exact ht
    | some t2 =>
      cases ok with
      | true => exact List.mem_filter.mpr ⟨ht, by simpa using hq⟩
      | false => exact List.mem_filter.mpr ⟨ht, by simpa using hq⟩

theorem pending_persists (events : List LoaderEvent) (t : PendingLoad) :
    ∀ st : LoaderState, t ∈ st.pending → (∀ ok, .settle t.promise ok ∉ events) →
      t ∈ (runLoader st events).pending := by
  induction events with
  | nil => intro st ht _; exact ht
  | cons ev events ih =>
    intro st ht hno
    refine ih _ (pending_persists_step st t ht ev ?_) ?_
    · intro ok e
      exact hno ok (by rw [e]; exact List.mem_cons_self _ _)
    · intro ok hm
      exact hno ok (List.mem_cons_of_mem _ hm)

/-- Settling the promise of a suspended load resumes that load. -/
theorem find_pending (st : LoaderState) (hinv : LoaderInv st) (t : PendingLoad)
    (ht : t ∈ st.pending) :
    st.pending.find? (fun u => u.promise == t.promise) = some t := by
  cases hfind : st.pending.find? (fun u => u.promise == t.promise) with
  | none =>
    have := List.find?_eq_none.mp hfind t ht
    simp at this
  | some u =>
    have hum : u ∈ st.pending := List.mem_of_find?_eq_some hfind
    have hup : u.promise = t.promise := by simpa using List.find?_some hfind
    rw [List.inj_on_of_nodup_map hinv.distinctPromise hum ht hup]

/-- What a call of `loadFont` that starts a registration returns and
leaves behind. -/
theorem loadFont_started (env : FontFaceEnv) (fm : FontMeta) (w : Int) (s : String)
    (st : LoaderState)
    (hreg : (loadFont env (some fm) w s st).2.registrations ≠ st.registrations) :
    ∃ files u face, fm.files = some files ∧
      jsOr (dictGet (getVariantKey w s) files)
        (jsOr (dictGet (getVariantKey 400 s) files)
          (dictGet (getVariantKey 400 "normal") files)) = some u ∧
      u ≠ "" ∧
      loadFont env (some fm) w s st =
      (.adopts st.nextPromise,
        { st with
          loadingPromises := dictSet (createFontKey fm.family w s) st.nextPromise
            st.loadingPromises
          pending := st.pending ++
            [{ promise := st.nextPromise, cacheKey := createFontKey fm.family w s,
               fontFace := face }]
          registrations := st.registrations ++ [face]
          nextPromise := st.nextPromise + 1 }) := by
  rcases loadFont_cases env (some fm) w s st with h | ⟨fm1, files, u, hfm, hf, _, _, hu, hne, h⟩
  · rw [h] at hreg
    exact absurd rfl hreg
  · cases hfm
    rw [h] at hreg ⊢
    cases env with
    | unsupported => exact absurd rfl hreg
    | constructorThrows => exact absurd rfl hreg
    | supported => exact ⟨files, u, _, hf, hu, hne, rfl⟩

theorem isFontLoaded_setAdd_ne (family : String) (w : Int) (s key : String)
    (st st2 : LoaderState) (h : st2.loadedFonts = setAdd key st.loadedFonts)
    (hne : createFontKey family w s ≠ key) :
    isFontLoaded family w s st2 = isFontLoaded family w s st := by
  unfold isFontLoaded
  rw [h]
  simp [mem_setAdd, hne]

/-- The fulfilment of a suspended load adds its cache key to the loaded set. -/
theorem settleLoad_fulfil_loaded (st : LoaderState) (hinv : LoaderInv st) (t : PendingLoad)
    (ht : t ∈ st.pending) :
    (settleLoad t.promise true st).loadedFonts = setAdd t.cacheKey st.loadedFonts := by
  unfold settleLoad
  rw [find_pending st hinv t ht]
  rfl

/-- After the rejection of a suspended load its cache key is neither loaded nor
in flight. -/
theorem settleLoad_reject_not_cached (st : LoaderState) (hinv : LoaderInv st) (t : PendingLoad)
    (ht : t ∈ st.pending) :
    t.cacheKey ∉ (settleLoad t.promise false st).loadedFonts ∧
      dictGet t.cacheKey (settleLoad t.promise false st).loadingPromises = none := by
  unfold settleLoad
  rw [find_pending st hinv t ht]
  exact ⟨hinv.notLoaded t ht, dictGet_dictDelete_self _ _⟩

/-! ## Properties of `loadFont` -/

/-- C6: when a call of `loadFont` registers a font, the face it constructs is
for the descriptor's family and the requested weight and style, and its source
is the first non-empty locator among `files[getVariantKey(w, s)]`,
`files[getVariantKey(400, s)]` and `files[getVariantKey(400, "normal")]`. -/
theorem loadFont_registers_first_present (env : FontFaceEnv) (fm : FontMeta) (w : Int)
    (s : String) (st : LoaderState) (face : FontFace)
    (h : (loadFont env (some fm) w s st).2.registrations = st.registrations ++ [face]) :
    ∃ files u, fm.files = some files ∧ u ≠ "" ∧
      face = { family := fm.family, source := "url(" ++ u ++ ")",
               weight := numberToString w, style := s } ∧
      (dictGet (getVariantKey w s) files = some u ∨
       (truthy (dictGet (getVariantKey w s) files) = false ∧
          dictGet (getVariantKey 400 s) files = some u) ∨
       (truthy (dictGet (getVariantKey w s) files) = false ∧
          truthy (dictGet (getVariantKey 400 s) files) = false ∧
          dictGet (getVariantKey 400 "normal") files = some u)) := by
  rcases loadFont_cases env (some fm) w s st with h1 | ⟨fm1, files, u, hfm, hf, _, _, hu, hne, h1⟩
  · rw [h1] at h
    simp at h
  · cases hfm
    rw [h1] at h
    refine ⟨files, u, hf, hne, ?_, jsOr_chain _ _ _ u hu⟩
    cases env with
    | unsupported => simp [startLoad] at h
    | constructorThrows => simp [startLoad] at h
    | supported =>
      simp only [startLoad, List.append_cancel_left_eq, List.cons.injEq, and_true] at h
      exact h.symm

theorem loadFont_registers_first_present_witness :
    (loadFont .supported (some normalOnlyMeta) 400 "italic" LoaderState.initial).2.registrations
        = LoaderState.initial.registrations ++
          [{ family := "A", source := "url(a-400.woff2)", weight := "400", style := "italic" }] ∧
      dictGet (getVariantKey 400 "normal") [("400", "a-400.woff2"), ("700", "a-700.woff2")]
        = some "a-400.woff2" ∧
      ∃ files u, normalOnlyMeta.files = some files ∧ u ≠ "" ∧
        ({ family := "A", source := "url(a-400.woff2)", weight := "400", style := "italic" }
            : FontFace) =
          { family := normalOnlyMeta.family, source := "url(" ++ u ++ ")",
            weight := numberToString 400, style := "italic" } ∧
        (dictGet (getVariantKey 400 "italic") files = some u ∨
         (truthy (dictGet (getVariantKey 400 "italic") files) = false ∧
            dictGet (getVariantKey 400 "italic") files = some u) ∨
         (truthy (dictGet (getVariantKey 400 "italic") files) = false ∧
            truthy (dictGet (getVariantKey 400 "italic") files) = false ∧
            dictGet (getVariantKey 400 "normal") files = some u)) :=
  ⟨by decide, by decide,
   loadFont_registers_first_present .supported normalOnlyMeta 400 "italic" LoaderState.initial _
     (by decide)⟩

/-- C7, as the code has it: for a descriptor with no entry in `files` under any
of the three keys, a call of `loadFont` changes nothing in any state (no
registration is started, the loaded set and the in-flight map stay as they
are); it resolves to `false` when the cache key is neither loaded nor in
flight, to `true` when the key is already loaded, and to the in-flight promise
when the key is in flight. -/
theorem loadFont_no_file (env : FontFaceEnv) (fm : FontMeta) (files : List (String × String))
    (w : Int) (s : String) (st : LoaderState) (hf : fm.files = some files)
    (h1 : dictGet (getVariantKey w s) files = none)
    (h2 : dictGet (getVariantKey 400 s) files = none)
    (h3 : dictGet (getVariantKey 400 "normal") files = none) :
    (loadFont env (some fm) w s st).2 = st ∧
    (createFontKey fm.family w s ∉ st.loadedFonts →
      dictGet (createFontKey fm.family w s) st.loadingPromises = none →
      (loadFont env (some fm) w s st).1 = .resolved false) ∧
    (createFontKey fm.family w s ∈ st.loadedFonts →
      (loadFont env (some fm) w s st).1 = .resolved true) ∧
    (∀ p, createFontKey fm.family w s ∉ st.loadedFonts →
      dictGet (createFontKey fm.family w s) st.loadingPromises = some p →
      (loadFont env (some fm) w s st).1 = .adopts p) := by
  refine ⟨?_, ?_, ?_, ?_⟩
  · rcases loadFont_cases env (some fm) w s st with h | ⟨fm1, files1, u, hfm, hf1, _, _, hu, _, _⟩
    · exact h
    · cases hfm
      rw [hf] at hf1
      cases hf1
      rw [h1, h2, h3] at hu
      simp [jsOr, truthy] at hu
  · intro hl hp
    simp [loadFont, hf, hl, hp, h1, h2, h3, truthy]
  · intro hl
    simp [loadFont, hf, hl]
  · intro p hl hp
    simp [loadFont, hf, hl, hp]

theorem loadFont_no_file_witness :
    (loadFont .supported (some emptyFilesMeta) 700 "italic" loadedState).2 = loadedState ∧
    (loadFont .supported (some emptyFilesMeta) 700 "italic" loadedState).1 = .resolved false :=
  ⟨(loadFont_no_file .supported emptyFilesMeta [] 700 "italic" loadedState rfl rfl rfl rfl).1,
   (loadFont_no_file .supported emptyFilesMeta [] 700 "italic" loadedState rfl rfl rfl rfl).2.1
     (by decide) (by decide)⟩

/-- C7 as stated fails: once (A, 400, normal) has been loaded from one
descriptor of the family, `loadFont` on another descriptor of that family with
an empty `files` map resolves to `true`, not `false`. -/
theorem loadFont_no_file_counterexample :
    emptyFilesMeta.files = some [] ∧
    dictGet (getVariantKey 400 "normal") ([] : List (String × String)) = none ∧
    loadedState.loadedFonts = ["A-400-normal"] ∧
    (loadFont .supported (some emptyFilesMeta) 400 "normal" loadedState).1 = .resolved true ∧
    (loadFont .supported (some emptyFilesMeta) 400 "normal" loadedState).1 ≠ .resolved false := by
  decide

/-- C8: when a call of `loadFont` for (w, s) registers a fallback file (there is
no usable entry under `getVariantKey(w, s)`) and that load is later fulfilled,
the key added to the loaded set is `createFontKey(family, w, s)`, so
`isFontLoaded(family, w, s)` becomes true, while `isFontLoaded` of the fallback
weight and style, (400, s) when `files[getVariantKey(400, s)]` was used and
(400, normal) otherwise, keeps its value; the call itself leaves the loaded set
as it was. -/
theorem loadFont_fallback_caches_requested (events1 events2 : List LoaderEvent)
    (env : FontFaceEnv) (fm : FontMeta) (files : List (String × String)) (w : Int) (s : String)
    (p : Nat) (st1 : LoaderState)
    (hf : fm.files = some files)
    (hfb : truthy (dictGet (getVariantKey w s) files) = false)
    (hcall : loadFont env (some fm) w s (runLoader LoaderState.initial events1) =
      (.adopts p, st1))
    (hreg : st1.registrations ≠ (runLoader LoaderState.initial events1).registrations)
    (hno : ∀ ok, LoaderEvent.settle p ok ∉ events2) :
    st1.loadedFonts = (runLoader LoaderState.initial events1).loadedFonts ∧
    (settleLoad p true (runLoader st1 events2)).loadedFonts =
      setAdd (createFontKey fm.family w s) (runLoader st1 events2).loadedFonts ∧
    isFontLoaded fm.family w s (settleLoad p true (runLoader st1 events2)) = true ∧
    (truthy (dictGet (getVariantKey 400 s) files) = true →
      isFontLoaded fm.family 400 s (settleLoad p true (runLoader st1 events2)) =
        isFontLoaded fm.family 400 s (runLoader st1 events2)) ∧
    (truthy (dictGet (getVariantKey 400 s) files) = false →
      isFontLoaded fm.family 400 "normal" (settleLoad p true (runLoader st1 events2)) =
        isFontLoaded fm.family 400 "normal" (runLoader st1 events2)) := by
  have hinv0 := runLoader_inv events1 _ initial_inv
  have hinv1 : LoaderInv st1 := by
    have := loadFont_inv env (some fm) w s _ hinv0
    rw [hcall] at this
    exact this
  have hreg2 : (loadFont env (some fm) w s (runLoader LoaderState.initial events1)).2.registrations
      ≠ (runLoader LoaderState.initial events1).registrations := by
    rw [hcall]; exact hreg
  obtain ⟨files1, u, face, hf1, hu, hune, hst⟩ := loadFont_started env fm w s _ hreg2
  rw [hf] at hf1
  cases hf1
  rw [hcall] at hst
  have hp : p = (runLoader LoaderState.initial events1).nextPromise :=
    LoadResult.adopts.inj (congrArg Prod.fst hst)
  have hst1 := congrArg Prod.snd hst
  simp only at hst1
  have htm : ({ promise := p, cacheKey := createFontKey fm.family w s, fontFace := face }
      : PendingLoad) ∈ st1.pending := by
    rw [hst1, hp]; simp
  have htm2 := pending_persists events2 _ st1 htm hno
  have hinv2 := runLoader_inv events2 st1 hinv1
  have hload := settleLoad_fulfil_loaded _ hinv2 _ htm2
  simp only at hload
  refine ⟨by rw [hst1], hload, ?_, ?_, ?_⟩
  · unfold isFontLoaded
    rw [hload]
    simp [mem_setAdd]
  · intro hb
    apply isFontLoaded_setAdd_ne _ _ _ _ _ _ hload
    apply createFontKey_weight_ne
    apply getVariantKey_ne_toString _ _ s
    intro e
    rw [e, hfb] at hb
    exact Bool.noConfusion hb
  · intro hb
    apply isFontLoaded_setAdd_ne _ _ _ _ _ _ hload
    rcases jsOr_chain _ _ _ u hu with h | h | h
    · rw [h] at hfb
      simp [truthy, hune] at hfb
    · rw [h.2] at hb
      simp [truthy, hune] at hb
    · have hs : s = "italic" := by
        by_contra hs
        have hc := h.2.2
        simp only [getVariantKey, hs, if_false, if_neg (show ¬ ("normal" = "italic") by decide)]
          at hb hc
        rw [hc] at hb
        simp [truthy, hune] at hb
      rw [hs]
      exact createFontKey_style_ne _ _ _

theorem loadFont_fallback_caches_requested_witness :
    regularOnlyMeta.files = some [("400", "r-400.woff2")] ∧
    (loadFont .supported (some regularOnlyMeta) 700 "italic" LoaderState.initial).1 =
      .adopts 0 ∧
    isFontLoaded "R" 700 "italic"
      (settleLoad 0 true
        (loadFont .supported (some regularOnlyMeta) 700 "italic" LoaderState.initial).2) = true ∧
    isFontLoaded "R" 400 "normal"
      (settleLoad 0 true
        (loadFont .supported (some regularOnlyMeta) 700 "italic" LoaderState.initial).2) =
      isFontLoaded "R" 400 "normal" LoaderState.initial :=
  ⟨rfl, by decide,
   (loadFont_fallback_caches_requested [] [] .supported regularOnlyMeta
      [("400", "r-400.woff2")] 700 "italic" 0
      (loadFont .supported (some regularOnlyMeta) 700 "italic" LoaderState.initial).2
      rfl (by decide) (by decide) (by decide) (by simp)).2.2.1,
   by decide⟩

/-- A call of `loadFont` for the cache key of a suspended load returns the
promise of that load and changes nothing. -/
theorem loadFont_in_flight (st : LoaderState) (hinv : LoaderInv st) (t : PendingLoad)
    (ht : t ∈ st.pending) (env : FontFaceEnv) (fm : FontMeta) (w : Int) (s : String)
    (hf : fm.files ≠ none) (hk : createFontKey fm.family w s = t.cacheKey) :
    loadFont env (some fm) w s st = (.adopts t.promise, st) := by
  cases hfiles : fm.files with
  | none => exact absurd hfiles hf
  | some files =>
    have hl : createFontKey fm.family w s ∉ st.loadedFonts := by
      rw [hk]; exact hinv.notLoaded t ht
    have hp : dictGet (createFontKey fm.family w s) st.loadingPromises = some t.promise := by
      rw [hk]; exact hinv.inFlight t ht
    simp [loadFont, hfiles, hl, hp]

/-- C9: in every state reached by any sequence of `loadFont` calls and load
completions, at most one suspended registration has a given cache key; and
when a call has started a registration and its promise has not settled in the
events that follow, a later call for the same triple (with the same
descriptor, or any descriptor with a `files` map and the same cache key)
returns the promise the earlier call returned, leaves the state as it is and
so starts no registration. -/
theorem one_outstanding_load_per_key :
    (∀ (events : List LoaderEvent) (k : String),
      (runLoader LoaderState.initial events).pending.countP (fun t => t.cacheKey == k) ≤ 1) ∧
    (∀ (events1 events2 : List LoaderEvent) (env env2 : FontFaceEnv) (fm : FontMeta) (w : Int)
      (s : String) (p : Nat) (st1 : LoaderState),
      loadFont env (some fm) w s (runLoader LoaderState.initial events1) = (.adopts p, st1) →
      st1.registrations ≠ (runLoader LoaderState.initial events1).registrations →
      (∀ ok, LoaderEvent.settle p ok ∉ events2) →
      loadFont env2 (some fm) w s (runLoader st1 events2) = (.adopts p, runLoader st1 events2) ∧
      (∀ (fm2 : FontMeta) (w2 : Int) (s2 : String), fm2.files ≠ none →
        createFontKey fm2.family w2 s2 = createFontKey fm.family w s →
        loadFont env2 (some fm2) w2 s2 (runLoader st1 events2) =
          (.adopts p, runLoader st1 events2))) := by
  constructor
  · intro events k
    have hinv := runLoader_inv events _ initial_inv
    have h := List.nodup_iff_count_le_one.mp hinv.distinct k
    rw [List.count, List.countP_map] at h
    have e : ((fun x => x == k) ∘ PendingLoad.cacheKey) = (fun t => t.cacheKey == k) := rfl
    rw [e] at h
    exact h
  · intro events1 events2 env env2 fm w s p st1 hcall hreg hno
    have hinv0 := runLoader_inv events1 _ initial_inv
    have hinv1 : LoaderInv st1 := by
      have := loadFont_inv env (some fm) w s _ hinv0
      rw [hcall] at this
      exact this
    have hreg2 :
        (loadFont env (some fm) w s (runLoader LoaderState.initial events1)).2.registrations
          ≠ (runLoader LoaderState.initial events1).registrations := by
      rw [hcall]; exact hreg
    obtain ⟨files, u, face, hf, _, _, hst⟩ := loadFont_started env fm w s _ hreg2
    rw [hcall] at hst
    have hp : p = (runLoader LoaderState.initial events1).nextPromise :=
      LoadResult.adopts.inj (congrArg Prod.fst hst)
    have hst1 := congrArg Prod.snd hst
    simp only at hst1
    have htm : ({ promise := p, cacheKey := createFontKey fm.family w s, fontFace := face }
        : PendingLoad) ∈ st1.pending := by
      rw [hst1, hp]; simp
    have htm2 := pending_persists events2 _ st1 htm hno
    have hinv2 := runLoader_inv events2 st1 hinv1
    refine ⟨?_, ?_⟩
    · exact loadFont_in_flight _ hinv2 _ htm2 env2 fm w s (by rw [hf]; simp) rfl
    · intro fm2 w2 s2 hf2 hk
      exact loadFont_in_flight _ hinv2 _ htm2 env2 fm2 w2 s2 hf2 hk

theorem one_outstanding_load_per_key_witness :
    (loadFont .supported (some normalOnlyMeta) 400 "normal" LoaderState.initial).1 = .adopts 0 ∧
    (∀ ok, LoaderEvent.settle 0 ok ∉
      [LoaderEvent.call .supported (some regularOnlyMeta) 400 "normal"]) ∧
    loadFont .supported (some normalOnlyMeta) 400 "normal"
        (runLoader (loadFont .supported (some normalOnlyMeta) 400 "normal"
          LoaderState.initial).2
          [.call .supported (some regularOnlyMeta) 400 "normal"]) =
      (.adopts 0,
        runLoader (loadFont .supported (some normalOnlyMeta) 400 "normal"
          LoaderState.initial).2
          [.call .supported (some regularOnlyMeta) 400 "normal"]) ∧
    (runLoader (loadFont .supported (some normalOnlyMeta) 400 "normal"
          LoaderState.initial).2
          [.call .supported (some regularOnlyMeta) 400 "normal"]).registrations.length = 2 :=
  ⟨by decide, by simp,
   (one_outstanding_load_per_key.2 [] [.call .supported (some regularOnlyMeta) 400 "normal"]
      .supported .supported normalOnlyMeta 400 "normal" 0
      (loadFont .supported (some normalOnlyMeta) 400 "normal" LoaderState.initial).2
      (by decide) (by decide) (by simp)).1,
   by decide⟩

/-- C10 at its failing input: with the FontFace API missing, or its constructor
throwing, the inner body of `loadFont` ends (and runs its `finally`) before the
promise is stored, so the failed promise stays in the in-flight map with no
load suspended, and the next call, with the API now available, returns that
same failed promise and starts no registration. -/
theorem loadFont_sync_failure_cached :
    (loadFont .unsupported (some normalOnlyMeta) 400 "normal" LoaderState.initial).1 =
      .adopts 0 ∧
    LoadResult.value (.adopts 0)
      (loadFont .unsupported (some normalOnlyMeta) 400 "normal" LoaderState.initial).2 =
      some false ∧
    (loadFont .unsupported (some normalOnlyMeta) 400 "normal" LoaderState.initial).2.pending
      = [] ∧
    dictGet (createFontKey "A" 400 "normal")
      (loadFont .unsupported (some normalOnlyMeta) 400 "normal"
        LoaderState.initial).2.loadingPromises = some 0 ∧
    loadFont .supported (some normalOnlyMeta) 400 "normal"
      (loadFont .unsupported (some normalOnlyMeta) 400 "normal" LoaderState.initial).2 =
      (.adopts 0,
        (loadFont .unsupported (some normalOnlyMeta) 400 "normal" LoaderState.initial).2) ∧
    (loadFont .supported (some normalOnlyMeta) 400 "normal"
      (loadFont .constructorThrows (some normalOnlyMeta) 400 "normal"
        LoaderState.initial).2).2.registrations = [] := by
  decide

/-- Failures of `fontFace.load()` itself are not cached: after the rejection of
a suspended load, in any reachable state, its key is neither loaded nor in flight. -/
theorem settleLoad_rejection_not_cached (events : List LoaderEvent) (t : PendingLoad)
    (ht : t ∈ (runLoader LoaderState.initial events).pending) :
    t.cacheKey ∉ (settleLoad t.promise false (runLoader LoaderState.initial events)).loadedFonts ∧
    dictGet t.cacheKey
      (settleLoad t.promise false (runLoader LoaderState.initial events)).loadingPromises =
      none :=
  settleLoad_reject_not_cached _ (runLoader_inv events _ initial_inv) t ht

/-- After a rejected load, the next call for the triple registers the font
again, under a new promise. -/
theorem loadFont_retry_after_rejection_example :
    (loadFont .supported (some normalOnlyMeta) 400 "normal"
      (runLoader LoaderState.initial
        [.call .supported (some normalOnlyMeta) 400 "normal", .settle 0 false])).1 =
      .adopts 1 ∧
    (loadFont .supported (some normalOnlyMeta) 400 "normal"
      (runLoader LoaderState.initial
        [.call .supported (some normalOnlyMeta) 400 "normal", .settle 0 false])).2.registrations
      = [{ family := "A", source := "url(a-400.woff2)", weight := "400", style := "normal" },
         { family := "A", source := "url(a-400.woff2)", weight := "400", style := "normal" }] := by
  decide

/-! ## Loaded entries are kept -/

theorem loadFont_loadedFonts (env : FontFaceEnv) (fontMeta : Option FontMeta) (w : Int)
    (s : String) (st : LoaderState) :
    (loadFont env fontMeta w s st).2.loadedFonts = st.loadedFonts := by
  rcases loadFont_cases env fontMeta w s st with h | ⟨fm, _, u, _, _, _, _, _, _, h⟩
  · rw [h]
  · rw [h]
    cases env <;> rfl

theorem stepLoader_loadedFonts (st : LoaderState) (ev : LoaderEvent) (k : String)
    (hk : k ∈ st.loadedFonts) : k ∈ (stepLoader st ev).loadedFonts := by
  cases ev with
  | call env fontMeta w s =>
    show k ∈ (loadFont env fontMeta w s st).2.loadedFonts
    rw [loadFont_loadedFonts]
    exact hk
  | settle p ok =>
    show k ∈ (settleLoad p ok st).loadedFonts
    unfold settleLoad
    cases st.pending.find? (fun t => t.promise == p) with
    | none => exact hk
    | some t =>
      cases ok with
      | true => exact (mem_setAdd _ _ _).mpr (Or.inr hk)
      | false => exact hk

theorem runLoader_loadedFonts (events : List LoaderEvent) (k : String) :
    ∀ st : LoaderState, k ∈ st.loadedFonts → k ∈ (runLoader st events).loadedFonts := by
  induction events with
  | nil => intro st h; exact h
  | cons ev events ih =>
    intro st h
    exact ih _ (stepLoader_loadedFonts st ev k h)

/-- The state left by `preloadFont` is the state left by its calls of
`loadFont`, made one after the other. -/
theorem preloadFont_state (env : FontFaceEnv) (fm : FontMeta) (variants : List VariantMeta)
    (st : LoaderState) (hv : fm.variants = some variants) :
    (preloadFont env (some fm) st).2 =
      runLoader st (variants.map (fun v => .call env (some fm) v.weight v.style)) := by
  simp only [preloadFont, hv]
  suffices h : ∀ (l : List VariantMeta) (acc : List LoadResult × LoaderState),
      (l.foldl
        (fun acc v =>
          ((acc.1 ++ [(loadFont env (some fm) v.weight v.style acc.2).1]),
            (loadFont env (some fm) v.weight v.style acc.2).2)) acc).2 =
        runLoader acc.2 (l.map (fun v => .call env (some fm) v.weight v.style)) from
    h variants ([], st)
  intro l
  induction l with
  | nil => intro acc; rfl
  | cons v l ih =>
    intro acc
    simp only [List.foldl_cons, List.map_cons]
    rw [ih]
    rfl

theorem preloadFont_loadedFonts (env : FontFaceEnv) (fontMeta : Option FontMeta)
    (st : LoaderState) (k : String) (hk : k ∈ st.loadedFonts) :
    k ∈ (preloadFont env fontMeta st).2.loadedFonts := by
  cases fontMeta with
  | none => exact hk
  | some fm =>
    cases hv : fm.variants with
    | none => simpa [preloadFont, hv] using hk
    | some variants =>
      rw [preloadFont_state env fm variants st hv]
      exact runLoader_loadedFonts _ k st hk

theorem loadFont_loaded (env : FontFaceEnv) (fm : FontMeta) (w : Int) (s : String)
    (st : LoaderState) (hf : fm.files ≠ none)
    (hk : createFontKey fm.family w s ∈ st.loadedFonts) :
    loadFont env (some fm) w s st = (.resolved true, st) := by
  cases hfiles : fm.files with
  | none => exact absurd hfiles hf
  | some files => simp [loadFont, hfiles, hk]

/-- A call that has started a registration leaves its load suspended until its
own promise settles, whatever else happens in between. -/
theorem started_load_pending (events1 events2 : List LoaderEvent) (env : FontFaceEnv)
    (fm : FontMeta) (w : Int) (s : String) (p : Nat) (st1 : LoaderState)
    (hcall : loadFont env (some fm) w s (runLoader LoaderState.initial events1) =
      (.adopts p, st1))
    (hreg : st1.registrations ≠ (runLoader LoaderState.initial events1).registrations)
    (hno : ∀ ok, LoaderEvent.settle p ok ∉ events2) :
    fm.files ≠ none ∧ LoaderInv (runLoader st1 events2) ∧
      ∃ face, ({ promise := p, cacheKey := createFontKey fm.family w s, fontFace := face }
        : PendingLoad) ∈ (runLoader st1 events2).pending := by
  have hinv0 := runLoader_inv events1 _ initial_inv
  have hinv1 : LoaderInv st1 := by
    have := loadFont_inv env (some fm) w s _ hinv0
    rw [hcall] at this
    exact this
  have hreg2 :
      (loadFont env (some fm) w s (runLoader LoaderState.initial events1)).2.registrations
        ≠ (runLoader LoaderState.initial events1).registrations := by
    rw [hcall]; exact hreg
  obtain ⟨files, u, face, hf, _, _, hst⟩ := loadFont_started env fm w s _ hreg2
  rw [hcall] at hst
  have hp : p = (runLoader LoaderState.initial events1).nextPromise :=
    LoadResult.adopts.inj (congrArg Prod.fst hst)
  have hst1 := congrArg Prod.snd hst
  simp only at hst1
  have htm : ({ promise := p, cacheKey := createFontKey fm.family w s, fontFace := face }
      : PendingLoad) ∈ st1.pending := by
    rw [hst1, hp]; simp
  exact ⟨by rw [hf]; simp, runLoader_inv events2 st1 hinv1,
    face, pending_persists events2 _ st1 htm hno⟩

/-- C11, as the code has it: a key of the loaded set stays in it under every
later sequence of `loadFont` calls and load completions, fulfilled or rejected,
and under `preloadFont`; `isFontLoaded` of its triple stays true; every later
call of `loadFont` for the triple with a descriptor that has a `files` map
resolves to `true` and changes nothing, so it starts no registration (so does
every later call with the descriptor whose load put the key there); and a call
with a descriptor that has no `files` map resolves to `false` in every state,
the loaded key notwithstanding, and changes nothing either. -/
theorem loaded_entries_never_expire :
    (∀ (st : LoaderState) (k : String) (events : List LoaderEvent),
      k ∈ st.loadedFonts → k ∈ (runLoader st events).loadedFonts) ∧
    (∀ (st : LoaderState) (k : String) (env : FontFaceEnv) (fontMeta : Option FontMeta),
      k ∈ st.loadedFonts → k ∈ (preloadFont env fontMeta st).2.loadedFonts) ∧
    (∀ (st : LoaderState) (family : String) (w : Int) (s : String)
      (events : List LoaderEvent),
      isFontLoaded family w s st = true →
        isFontLoaded family w s (runLoader st events) = true) ∧
    (∀ (st : LoaderState) (env : FontFaceEnv) (fm : FontMeta) (w : Int) (s : String)
      (events : List LoaderEvent),
      fm.files ≠ none → createFontKey fm.family w s ∈ st.loadedFonts →
        loadFont env (some fm) w s (runLoader st events) =
          (.resolved true, runLoader st events)) ∧
    (∀ (events1 events2 events3 : List LoaderEvent) (env env2 : FontFaceEnv) (fm : FontMeta)
      (w : Int) (s : String) (p : Nat) (st1 : LoaderState),
      loadFont env (some fm) w s (runLoader LoaderState.initial events1) = (.adopts p, st1) →
      st1.registrations ≠ (runLoader LoaderState.initial events1).registrations →
      (∀ ok, LoaderEvent.settle p ok ∉ events2) →
      loadFont env2 (some fm) w s
          (runLoader (settleLoad p true (runLoader st1 events2)) events3) =
        (.resolved true, runLoader (settleLoad p true (runLoader st1 events2)) events3)) ∧
    (∀ (st : LoaderState) (env : FontFaceEnv) (fm : FontMeta) (w : Int) (s : String),
      fm.files = none → loadFont env (some fm) w s st = (.resolved false, st)) := by
  refine ⟨?_, ?_, ?_, ?_, ?_, ?_⟩
  · intro st k events hk
    exact runLoader_loadedFonts events k st hk
  · intro st k env fontMeta hk
    exact preloadFont_loadedFonts env fontMeta st k hk
  · intro st family w s events h
    unfold isFontLoaded at h ⊢
    simp only [decide_eq_true_eq] at h ⊢
    exact runLoader_loadedFonts events _ st h
  · intro st env fm w s events hf hk
    exact loadFont_loaded env fm w s _ hf (runLoader_loadedFonts events _ st hk)
  · intro events1 events2 events3 env env2 fm w s p st1 hcall hreg hno
    obtain ⟨hf, hinv2, face, htm⟩ :=
      started_load_pending events1 events2 env fm w s p st1 hcall hreg hno
    have hload := settleLoad_fulfil_loaded _ hinv2 _ htm
    simp only at hload
    apply loadFont_loaded env2 fm w s _ hf
    apply runLoader_loadedFonts
    rw [hload]
    exact (mem_setAdd _ _ _).mpr (Or.inl rfl)
  · intro st env fm w s hf
    simp [loadFont, hf]

theorem loaded_entries_never_expire_witness :
    createFontKey "A" 400 "normal" ∈ loadedState.loadedFonts ∧
    createFontKey "A" 400 "normal" ∈
      (runLoader loadedState
        [.call .supported (some regularOnlyMeta) 400 "normal", .settle 1 false]).loadedFonts ∧
    loadFont .supported (some normalOnlyMeta) 400 "normal"
        (runLoader loadedState
          [.call .supported (some regularOnlyMeta) 400 "normal", .settle 1 false]) =
      (.resolved true,
        runLoader loadedState
          [.call .supported (some regularOnlyMeta) 400 "normal", .settle 1 false]) :=
  ⟨by decide,
   loaded_entries_never_expire.1 loadedState _ _ (by decide),
   loaded_entries_never_expire.2.2.2.1 loadedState .supported normalOnlyMeta 400 "normal" _
     (by decide) (by decide)⟩

/-- C11 as stated fails in its last part: with the key of ("A", 400, normal) in
the loaded set, a call of `loadFont` for that triple with a descriptor of the
family "A" that has no `files` map resolves to `false`, because the guard on
the metadata comes before the look-up in the loaded set. -/
theorem loaded_entries_never_expire_counterexample :
    filesLessMeta.family = "A" ∧ filesLessMeta.files = none ∧
    createFontKey filesLessMeta.family 400 "normal" ∈ loadedState.loadedFonts ∧
    isFontLoaded "A" 400 "normal" loadedState = true ∧
    loadFont .supported (some filesLessMeta) 400 "normal" loadedState =
      (.resolved false, loadedState) := by
  decide

/-! ## The fallback loads of `loadFontsForSide` -/

/-- With awaits that yield booleans, `loadFontsForSide` makes at most the
requested call and, for a failed italic request, the call for the normal style
at the same weight. -/
theorem loadFontsForSide_calls (fontId : String) (w : Int) (s : String) (b1 b2 : Bool)
    (st : AppState) (font : FontMeta) (hfont : getFontById (some fontId) st = some font)
    (hloading : fontId ++ "-" ++ numberToString w ++ "-" ++ s ∉ st.loadingFonts) :
    loadFontsForSide fontId w s (.value b1) (.value b2) st =
      if b1 = false ∧ s = "italic" then [(font, w, s), (font, w, "normal")]
      else [(font, w, s)] := by
  unfold loadFontsForSide
  rw [hfont]
  simp only [hloading, if_false]
  cases b1 <;> by_cases hs : s = "italic" <;> simp [hs]

/-- C12 at its failing input: for a font with files for (700, italic),
(700, normal) and (400, normal) whose first two registrations are rejected,
both awaited `loadFont` calls yield `false`, not a rejection, so the `catch`
block is not entered: `loadFontsForSide` calls `loadFont` for (700, italic) and
(700, normal) only, no load of (400, normal) is attempted, and that triple is
not loaded afterwards. -/
theorem loadFontsForSide_skips_final_fallback :
    awaited (loadFont .supported (some brokenMeta) 700 "italic" LoaderState.initial).1
      afterItalicRejected = some (.value false) ∧
    awaited (loadFont .supported (some brokenMeta) 700 "normal" afterItalicRejected).1
      afterNormalRejected = some (.value false) ∧
    loadFontsForSide "b" 700 "italic" (.value false) (.value false) sampleState =
      [(brokenMeta, 700, "italic"), (brokenMeta, 700, "normal")] ∧
    (brokenMeta, (400 : Int), "normal") ∉
      loadFontsForSide "b" 700 "italic" (.value false) (.value false) sampleState ∧
    afterNormalRejected.registrations =
      [{ family := "B", source := "url(b-700i.woff2)", weight := "700", style := "italic" },
       { family := "B", source := "url(b-700.woff2)", weight := "700", style := "normal" }] ∧
    isFontLoaded "B" 400 "normal" afterNormalRejected = false := by
  decide

/-! ## The promises returned by `loadFont` -/

theorem value_settled_cons (p q : Nat) (b : Bool) (st st2 : LoaderState)
    (hs : st2.settled = (q, b) :: st.settled)
    (h : ∃ c, (LoadResult.adopts p).value st = some c) :
    ∃ c, (LoadResult.adopts p).value st2 = some c := by
  obtain ⟨c, hc⟩ := h
  simp only [LoadResult.value] at hc ⊢
  rw [hs]
  by_cases e : q = p
  · exact ⟨b, by simp [e]⟩
  · have hfind : ((q, b) :: st.settled).find? (fun e => e.1 == p) =
        st.settled.find? (fun e => e.1 == p) := by
      simp [List.find?_cons, e]
    rw [hfind]
    exact ⟨c, hc⟩

theorem value_settled_head (p : Nat) (b : Bool) (st2 : LoaderState) (rest : List (Nat × Bool))
    (hs : st2.settled = (p, b) :: rest) :
    (LoadResult.adopts p).value st2 = some b := by
  simp [LoadResult.value, hs]

theorem startLoad_accounted (env : FontFaceEnv) (family : String) (w : Int) (s key u : String)
    (st : LoaderState) (h : PromisesAccounted st) :
    PromisesAccounted (startLoad env family w s key u st).2 := by
  have failed : PromisesAccounted
      { st with
        loadingPromises := dictSet key st.nextPromise (dictDelete key st.loadingPromises)
        settled := (st.nextPromise, false) :: st.settled
        nextPromise := st.nextPromise + 1 } := by
    intro k p hk
    by_cases e : k = key
    · rw [e] at hk
      have hk2 : dictGet key (dictSet key st.nextPromise (dictDelete key st.loadingPromises))
          = some p := hk
      rw [dictGet_dictSet_self] at hk2
      cases hk2
      exact Or.inr ⟨false, value_settled_head _ _ _ _ rfl⟩
    · have hk2 : dictGet k (dictSet key st.nextPromise (dictDelete key st.loadingPromises))
          = some p := hk
      rw [dictGet_dictSet_ne _ _ _ _ e, dictGet_dictDelete_ne _ _ _ e] at hk2
      rcases h k p hk2 with ⟨t, ht, htp⟩ | hv
      · exact Or.inl ⟨t, ht, htp⟩
      · exact Or.inr (value_settled_cons p st.nextPromise false st _ rfl hv)
  cases env with
  | unsupported => exact failed
  | constructorThrows => exact failed
  | supported =>
    intro k p hk
    by_cases e : k = key
    · rw [e] at hk
      have hk2 : dictGet key (dictSet key st.nextPromise st.loadingPromises) = some p := hk
      rw [dictGet_dictSet_self] at hk2
      cases hk2
      exact Or.inl ⟨_, List.mem_append_right _ (List.mem_singleton.mpr rfl), rfl⟩
    · have hk2 : dictGet k (dictSet key st.nextPromise st.loadingPromises) = some p := hk
      rw [dictGet_dictSet_ne _ _ _ _ e] at hk2
      rcases h k p hk2 with ⟨t, ht, htp⟩ | hv
      · exact Or.inl ⟨t, List.mem_append_left _ ht, htp⟩
      · exact Or.inr hv

theorem loadFont_accounted (env : FontFaceEnv) (fontMeta : Option FontMeta) (w : Int)
    (s : String) (st : LoaderState) (h : PromisesAccounted st) :
    PromisesAccounted (loadFont env fontMeta w s st).2 := by
  rcases loadFont_cases env fontMeta w s st with h1 | ⟨fm, _, u, _, _, _, _, _, _, h1⟩
  · rw [h1]; exact h
  · rw [h1]; exact startLoad_accounted env fm.family w s _ u st h

theorem settleLoad_accounted (q : Nat) (ok : Bool) (st : LoaderState)
    (h : PromisesAccounted st) : PromisesAccounted (settleLoad q ok st) := by
  unfold settleLoad
  cases hfind : st.pending.find? (fun t => t.promise == q) with
  | none => exact h
  | some t =>
    have key : ∀ (st2 : LoaderState),
        st2.loadingPromises = dictDelete t.cacheKey st.loadingPromises →
        st2.pending = st.pending.filter (fun u => u.promise != q) →
        st2.settled = (q, ok) :: st.settled → PromisesAccounted st2 := by
      intro st2 hlp hpend hset k p hk
      rw [hlp] at hk
      have hne : k ≠ t.cacheKey := by
        intro e
        rw [e, dictGet_dictDelete_self] at hk
        exact Option.noConfusion hk
      rw [dictGet_dictDelete_ne _ _ _ hne] at hk
      rcases h k p hk with ⟨u, hu, hup⟩ | hv
      · by_cases e : q = p
        · exact Or.inr ⟨ok, by rw [← e]; exact value_settled_head _ _ _ _ hset⟩
        · refine Or.inl ⟨u, ?_, hup⟩
          rw [hpend]
          refine List.mem_filter.mpr ⟨hu, ?_⟩
          rw [hup]
          simpa using fun e2 : p = q => e e2.symm
      · exact Or.inr (value_settled_cons p q ok st st2 hset hv)
    cases ok with
    | true => exact key _ rfl rfl rfl
    | false => exact key _ rfl rfl rfl

theorem runLoader_accounted (events : List LoaderEvent) :
    ∀ st : LoaderState, PromisesAccounted st → PromisesAccounted (runLoader st events) := by
  induction events with
  | nil => intro st h; exact h
  | cons ev events ih =>
    intro st h
    apply ih
    cases ev with
    | call env fontMeta w s => exact loadFont_accounted env fontMeta w s st h
    | settle p ok => exact settleLoad_accounted p ok st h

theorem initial_accounted : PromisesAccounted LoaderState.initial := by
  intro k p hk
  simp [LoaderState.initial, dictGet] at hk

/-- In a reachable state the result of `loadFont` is a resolved boolean, or it
adopts a promise that has resolved to a boolean or whose load is suspended. -/
theorem loadFont_result (st : LoaderState) (hacc : PromisesAccounted st) (env : FontFaceEnv)
    (fontMeta : Option FontMeta) (w : Int) (s : String) :
    (∃ b, (loadFont env fontMeta w s st).1 = .resolved b) ∨
    (∃ p, (loadFont env fontMeta w s st).1 = .adopts p ∧
      ((∃ b, (LoadResult.adopts p).value (loadFont env fontMeta w s st).2 = some b) ∨
       (∃ t ∈ (loadFont env fontMeta w s st).2.pending, t.promise = p))) := by
  cases fontMeta with
  | none => exact Or.inl ⟨false, rfl⟩
  | some fm =>
    cases hf : fm.files with
    | none => left; exact ⟨false, by simp [loadFont, hf]⟩
    | some files =>
      by_cases hl : createFontKey fm.family w s ∈ st.loadedFonts
      · left; exact ⟨true, by simp [loadFont, hf, hl]⟩
      · cases hp : dictGet (createFontKey fm.family w s) st.loadingPromises with
        | some p =>
          right
          have e : loadFont env (some fm) w s st = (.adopts p, st) := by
            simp [loadFont, hf, hl, hp]
          rw [e]
          refine ⟨p, rfl, ?_⟩
          rcases hacc _ p hp with h | h
          · exact Or.inr h
          · exact Or.inl h
        | none =>
          rcases loadFont_cases env (some fm) w s st with
            h1 | ⟨fm1, _, u, hfm, _, _, _, _, _, h1⟩
          · left
            cases hn : (!truthy (dictGet (getVariantKey w s) files) &&
                !truthy (dictGet (getVariantKey 400 s) files) &&
                !truthy (dictGet (getVariantKey 400 "normal") files)) with
            | true => exact ⟨false, by simp only [loadFont, hf, hl, hp, hn, if_true, if_false]⟩
            | false =>
              cases hu : jsOr (dictGet (getVariantKey w s) files)
                  (jsOr (dictGet (getVariantKey 400 s) files)
                    (dictGet (getVariantKey 400 "normal") files)) with
              | none =>
                exact ⟨false, by
                  simp only [loadFont, hf, hl, hp, hn, hu, if_false, Bool.false_eq_true]⟩
              | some u =>
                by_cases he : u = ""
                · exact ⟨false, by
                    simp only [loadFont, hf, hl, hp, hn, hu, he, if_true, if_false,
                      Bool.false_eq_true]⟩
                · exfalso
                  have e : loadFont env (some fm) w s st =
                      startLoad env fm.family w s (createFontKey fm.family w s) u st := by
                    simp only [loadFont, hf, hl, hp, hn, hu, he, if_false, Bool.false_eq_true]
                  rw [e] at h1
                  have hnp := congrArg LoaderState.nextPromise h1
                  cases env <;> simp [startLoad] at hnp
          · cases hfm
            right
            rw [h1]
            cases env with
            | unsupported =>
              exact ⟨st.nextPromise, rfl, Or.inl ⟨false, value_settled_head _ _ _ _ rfl⟩⟩
            | constructorThrows =>
              exact ⟨st.nextPromise, rfl, Or.inl ⟨false, value_settled_head _ _ _ _ rfl⟩⟩
            | supported =>
              exact ⟨st.nextPromise, rfl,
                Or.inr ⟨_, List.mem_append_right _ (List.mem_singleton.mpr rfl), rfl⟩⟩

/-- The promise of a suspended load resolves to `true` when `fontFace.load()`
is fulfilled and to `false` when it is rejected. -/
theorem settleLoad_value (st : LoaderState) (hinv : LoaderInv st) (t : PendingLoad)
    (ht : t ∈ st.pending) (ok : Bool) :
    (LoadResult.adopts t.promise).value (settleLoad t.promise ok st) = some ok := by
  unfold settleLoad
  rw [find_pending st hinv t ht]
  cases ok <;> exact value_settled_head _ _ _ _ rfl

/-- C13: `loadFont` never raises to its caller. It is a total function whose
promise is already resolved with a boolean, or adopts a promise of the
in-flight map that has resolved to a boolean or whose load is still suspended;
the promise of a suspended load resolves to `true` when its registration is
fulfilled and to `false` when it is rejected. For `null` or `undefined`
metadata and for metadata without `files` the result is `false`. -/
theorem loadFont_never_raises :
    (∀ (env : FontFaceEnv) (w : Int) (s : String) (st : LoaderState),
      loadFont env none w s st = (.resolved false, st)) ∧
    (∀ (env : FontFaceEnv) (fm : FontMeta) (w : Int) (s : String) (st : LoaderState),
      fm.files = none → loadFont env (some fm) w s st = (.resolved false, st)) ∧
    (∀ (events : List LoaderEvent) (env : FontFaceEnv) (fontMeta : Option FontMeta) (w : Int)
      (s : String),
      (∃ b, (loadFont env fontMeta w s (runLoader LoaderState.initial events)).1 =
        .resolved b) ∨
      (∃ p, (loadFont env fontMeta w s (runLoader LoaderState.initial events)).1 = .adopts p ∧
        ((∃ b, (LoadResult.adopts p).value
            (loadFont env fontMeta w s (runLoader LoaderState.initial events)).2 = some b) ∨
         (∃ t ∈ (loadFont env fontMeta w s (runLoader LoaderState.initial events)).2.pending,
            t.promise = p)))) ∧
    (∀ (events : List LoaderEvent) (t : PendingLoad) (ok : Bool),
      t ∈ (runLoader LoaderState.initial events).pending →
      (LoadResult.adopts t.promise).value
        (settleLoad t.promise ok (runLoader LoaderState.initial events)) = some ok) := by
  refine ⟨fun _ _ _ _ => rfl, ?_, ?_, ?_⟩
  · intro env fm w s st hf
    simp [loadFont, hf]
  · intro events env fontMeta w s
    exact loadFont_result _ (runLoader_accounted events _ initial_accounted) env fontMeta w s
  · intro events t ok ht
    exact settleLoad_value _ (runLoader_inv events _ initial_inv) t ht ok

theorem loadFont_never_raises_witness :
    loadFont .supported (some { normalOnlyMeta with files := none }) 400 "normal"
      LoaderState.initial = (.resolved false, LoaderState.initial) ∧
    (LoadResult.adopts 0).value afterItalicRejected = some false :=
  ⟨loadFont_never_raises.2.1 .supported _ 400 "normal" LoaderState.initial rfl,
   loadFont_never_raises.2.2.2
     [.call .supported (some brokenMeta) 700 "italic"]
     { promise := 0, cacheKey := "B-700-italic",
       fontFace := { family := "B", source := "url(b-700i.woff2)", weight := "700",
                     style := "italic" } }
     false (by decide)⟩

/-! ## Decimal text and the injectivity of `createFontKey` -/

theorem digitChar_value (d : Nat) (h : d < 10) : (Nat.digitChar d).toNat - 48 = d := by
  interval_cases d <;> rfl

theorem digitChar_ne_hyphen (d : Nat) (h : d < 10) : Nat.digitChar d ≠ '-' := by
  interval_cases d <;> decide

theorem toDigitsCore_value (fuel : Nat) :
    ∀ (n : Nat) (ds : List Char), n < fuel →
      (Nat.toDigitsCore 10 fuel n ds).foldl (fun acc c => 10 * acc + (c.toNat - 48)) 0 =
        ds.foldl (fun acc c => 10 * acc + (c.toNat - 48)) n := by
  induction fuel with
  | zero => intro n ds h; exact absurd h (Nat.not_lt_zero _)
  | succ fuel ih =>
    intro n ds h
    simp only [Nat.toDigitsCore]
    have hd := digitChar_value (n % 10) (Nat.mod_lt _ (by decide))
    split
    · rename_i h0
      have hn : n % 10 = n := Nat.mod_eq_of_lt (by omega)
      simp only [List.foldl_cons, Nat.mul_zero, Nat.zero_add]
      rw [hd, hn]
    · rename_i h0
      rw [ih (n / 10) _ (by omega)]
      simp only [List.foldl_cons, hd]
      congr 1
      omega

theorem decimalValue_toDigits (n : Nat) : decimalValue (Nat.toDigits 10 n) = n := by
  unfold decimalValue Nat.toDigits
  rw [toDigitsCore_value (n + 1) n [] (Nat.lt_succ_self _)]
  rfl

theorem natRepr_injective (a b : Nat) (h : Nat.repr a = Nat.repr b) : a = b := by
  have h2 : Nat.toDigits 10 a = Nat.toDigits 10 b := by
    have := congrArg String.data h
    simpa [Nat.repr, List.asString] using this
  rw [← decimalValue_toDigits a, ← decimalValue_toDigits b, h2]

theorem toDigitsCore_no_hyphen (fuel : Nat) :
    ∀ (n : Nat) (ds : List Char), (∀ c ∈ ds, c ≠ '-') →
      ∀ c ∈ Nat.toDigitsCore 10 fuel n ds, c ≠ '-' := by
  induction fuel with
  | zero => intro n ds h; simpa [Nat.toDigitsCore] using h
  | succ fuel ih =>
    intro n ds h
    simp only [Nat.toDigitsCore]
    have hd := digitChar_ne_hyphen (n % 10) (Nat.mod_lt _ (by decide))
    have hds : ∀ c ∈ Nat.digitChar (n % 10) :: ds, c ≠ '-' := by
      intro c hc
      rcases List.mem_cons.mp hc with e | e
      · rw [e]; exact hd
      · exact h c e
    split
    · exact hds
    · exact ih _ _ hds

theorem natRepr_no_hyphen (n : Nat) : '-' ∉ (Nat.repr n).data := by
  intro h
  have h2 : '-' ∈ Nat.toDigits 10 n := by simpa [Nat.repr, List.asString] using h
  exact toDigitsCore_no_hyphen (n + 1) n [] (by simp) '-' h2 rfl

theorem split_at_first {α : Type} (a : α) (x1 : List α) :
    ∀ (x2 z1 z2 : List α), a ∉ x1 → a ∉ x2 → x1 ++ a :: z1 = x2 ++ a :: z2 →
      x1 = x2 ∧ z1 = z2 := by
  induction x1 with
  | nil =>
    intro x2 z1 z2 _ h2 h
    cases x2 with
    | nil => exact ⟨rfl, by simpa using h⟩
    | cons b x2 =>
      simp only [List.nil_append, List.cons_append, List.cons.injEq] at h
      exact absurd (by rw [h.1]; exact List.mem_cons_self _ _) h2
  | cons c x1 ih =>
    intro x2 z1 z2 h1 h2 h
    cases x2 with
    | nil =>
      simp only [List.nil_append, List.cons_append, List.cons.injEq] at h
      exact absurd (by rw [← h.1]; exact List.mem_cons_self _ _) h1
    | cons b x2 =>
      simp only [List.cons_append, List.cons.injEq] at h
      obtain ⟨e1, e2⟩ := ih x2 z1 z2 (fun hm => h1 (List.mem_cons_of_mem _ hm))
        (fun hm => h2 (List.mem_cons_of_mem _ hm)) h.2
      exact ⟨by rw [h.1, e1], e2⟩

/-- The cache key determines its triple when the weights are not negative and
at most 2^53 and the styles contain no hyphen. -/
theorem createFontKey_inj (f1 f2 : String) (w1 w2 : Int) (s1 s2 : String)
    (hw1 : 0 ≤ w1) (hw2 : 0 ≤ w2) (hb1 : w1 ≤ 2 ^ 53) (hb2 : w2 ≤ 2 ^ 53)
    (hs1 : '-' ∉ s1.data) (hs2 : '-' ∉ s2.data)
    (h : createFontKey f1 w1 s1 = createFontKey f2 w2 s2) :
    f1 = f2 ∧ w1 = w2 ∧ s1 = s2 := by
  obtain ⟨n1, rfl⟩ := Int.eq_ofNat_of_zero_le hw1
  obtain ⟨n2, rfl⟩ := Int.eq_ofNat_of_zero_le hw2
  have hn1 : n1 ≤ 2 ^ 53 := by exact_mod_cast hb1
  have hn2 : n2 ≤ 2 ^ 53 := by exact_mod_cast hb2
  have hd := congrArg List.reverse (String.ext_iff.mp h)
  simp only [createFontKey, numberToString_ofNat n1 hn1, numberToString_ofNat n2 hn2,
    String.data_append, List.reverse_append, List.append_assoc] at hd
  have hdash : ("-" : String).data.reverse = ['-'] := rfl
  rw [hdash] at hd
  simp only [List.singleton_append] at hd
  obtain ⟨e1, hd2⟩ := split_at_first '-' _ _ _ _
    (by simpa using hs1) (by simpa using hs2) hd
  obtain ⟨e2, e3⟩ := split_at_first '-' _ _ _ _
    (by simpa using natRepr_no_hyphen n1) (by simpa using natRepr_no_hyphen n2) hd2
  have es : s1 = s2 := String.ext (List.reverse_injective e1)
  have en : n1 = n2 := natRepr_injective _ _ (String.ext (List.reverse_injective e2))
  have ef : f1 = f2 := String.ext (List.reverse_injective e3)
  exact ⟨ef, by rw [en], es⟩

/-- C14: for all family strings, hyphens included, all integer weights in
[100, 900] and all styles among `"normal"` and `"italic"`, equal cache keys come
from equal families, equal weights and equal styles. -/
theorem createFontKey_injective (f1 f2 : String) (w1 w2 : Int) (s1 s2 : String)
    (hw1 : 100 ≤ w1 ∧ w1 ≤ 900) (hw2 : 100 ≤ w2 ∧ w2 ≤ 900)
    (hs1 : s1 = "normal" ∨ s1 = "italic") (hs2 : s2 = "normal" ∨ s2 = "italic")
    (h : createFontKey f1 w1 s1 = createFontKey f2 w2 s2) :
    f1 = f2 ∧ w1 = w2 ∧ s1 = s2 := by
  have style_ok : ∀ s : String, s = "normal" ∨ s = "italic" → '-' ∉ s.data := by
    intro s hs
    rcases hs with e | e <;> (rw [e]; decide)
  exact createFontKey_inj f1 f2 w1 w2 s1 s2 (by omega) (by omega)
    (le_trans hw1.2 (by norm_num)) (le_trans hw2.2 (by norm_num))
    (style_ok s1 hs1) (style_ok s2 hs2) h

theorem createFontKey_injective_witness :
    createFontKey "Source-Sans" 400 "normal" = "Source-Sans-400-normal" ∧
    ("Source-Sans" = "Source-Sans" ∧ (400 : Int) = 400 ∧ "normal" = "normal") :=
  ⟨by decide,
   createFontKey_injective "Source-Sans" "Source-Sans" 400 400 "normal" "normal"
     (by omega) (by omega) (Or.inl rfl) (Or.inl rfl) rfl⟩

/-- C15, as the code has it: for every integer weight of at most 2^53 in
magnitude, `getVariantKey(weight, "normal")` is the decimal text of the weight
and `getVariantKey(weight, "italic")` is that text followed by `"italic"`; for
a weight that is not negative the text is the digit string of the number, which
reads back as the weight. -/
theorem getVariantKey_text (w : Int) (hw : |w| ≤ 2 ^ 53) :
    getVariantKey w "normal" = decimalText w ∧
    getVariantKey w "italic" = decimalText w ++ "italic" ∧
    (0 ≤ w → (getVariantKey w "normal").data = Nat.toDigits 10 w.toNat ∧
      decimalValue (getVariantKey w "normal").data = w.toNat) := by
  have hn : w.natAbs ≤ 2 ^ 53 := by
    have h2 : ((w.natAbs : Int)) ≤ ((2 ^ 53 : Nat) : Int) := by
      rw [← Int.abs_eq_natAbs]
      simpa using hw
    exact Int.ofNat_le.mp h2
  have htext : numberToString w = decimalText w := by
    unfold decimalText
    by_cases hneg : w < 0
    · rw [numberToString_neg w hneg hn, if_pos hneg]
      rfl
    · rw [if_neg hneg]
      obtain ⟨n, rfl⟩ := Int.eq_ofNat_of_zero_le (Int.not_lt.mp hneg)
      rw [numberToString_ofNat n hn]
      rfl
  have hnormal : getVariantKey w "normal" = decimalText w := by
    unfold getVariantKey
    rw [if_neg (by decide), htext]
  have hitalic : getVariantKey w "italic" = decimalText w ++ "italic" := by
    unfold getVariantKey
    rw [if_pos rfl, htext]
  refine ⟨hnormal, hitalic, ?_⟩
  intro h0
  obtain ⟨n, rfl⟩ := Int.eq_ofNat_of_zero_le h0
  have hdata : (getVariantKey (n : Int) "normal").data = Nat.toDigits 10 n := by
    rw [hnormal]
    unfold decimalText
    rw [if_neg (Int.not_lt.mpr (Int.ofNat_nonneg n))]
    rfl
  refine ⟨hdata, ?_⟩
  rw [hdata]
  exact decimalValue_toDigits n

theorem getVariantKey_text_witness :
    |(400 : Int)| ≤ 2 ^ 53 ∧
    getVariantKey 400 "normal" = "400" ∧
    getVariantKey 400 "italic" = "400italic" ∧
    getVariantKey (-5) "italic" = "-5italic" ∧
    (getVariantKey 400 "normal" = decimalText 400 ∧
      getVariantKey 400 "italic" = decimalText 400 ++ "italic" ∧
      ((0 : Int) ≤ 400 → (getVariantKey 400 "normal").data = Nat.toDigits 10 (400 : Int).toNat ∧
        decimalValue (getVariantKey 400 "normal").data = (400 : Int).toNat)) :=
  ⟨by decide, by decide, by decide, by decide, getVariantKey_text 400 (by decide)⟩

set_option maxRecDepth 100000 in
/-- C15 as stated fails: the weight 10^21, which is a double, has the decimal
text `"1000000000000000000000"`, while the template literal of `getVariantKey`
prints it with an exponent; and the weight 2^60, also a double, has the decimal
text `"1152921504606846976"`, while the template literal prints the shortest
digits that read back as the number, followed by zeros. -/
theorem getVariantKey_text_counterexample :
    decimalText 1000000000000000000000 = "1000000000000000000000" ∧
    getVariantKey 1000000000000000000000 "normal" = "1e+21" ∧
    getVariantKey 1000000000000000000000 "italic" = "1e+21italic" ∧
    decimalText 1152921504606846976 = "1152921504606846976" ∧
    getVariantKey 1152921504606846976 "normal" = "1152921504606847000" ∧
    getVariantKey 1000000000000000000000 "normal" ≠ decimalText 1000000000000000000000 ∧
    getVariantKey 1152921504606846976 "normal" ≠ decimalText 1152921504606846976 := by
  decide

/-! ## `pickWinner` -/

theorem mem_truthyIds (x : String) (ids : List (Option String)) :
    x ∈ truthyIds ids ↔ some x ∈ ids ∧ x ≠ "" := by
  unfold truthyIds
  rw [List.mem_filterMap]
  constructor
  · rintro ⟨id, hid, h⟩
    cases id with
    | none => simp at h
    | some y =>
      by_cases hy : y = ""
      · simp [hy] at h
      · simp only [hy, if_false, Option.some.injEq] at h
        rw [← h]
        exact ⟨hid, hy⟩
  · rintro ⟨h1, h2⟩
    exact ⟨some x, h1, by simp [h2]⟩

theorem truthyIds_length_le (a b : Option String) : (truthyIds [a, b]).length ≤ 2 := by
  unfold truthyIds
  exact le_trans (List.length_filterMap_le _ _) (by simp)

/-- What `randomFontId` returns is the id of a catalog entry outside the
excluded ids. -/
theorem randomFontId_some (exclude : List String) (draw : RandomDraw) (st : AppState)
    (x : String) (h : randomFontId exclude draw st = some x) :
    ∃ f ∈ st.catalog, f.id = x ∧ x ∉ exclude := by
  unfold randomFontId at h
  simp only [Option.map_eq_some'] at h
  obtain ⟨f, hf, hx⟩ := h
  have hm : f ∈ st.catalog.filter (fun f => !exclude.contains f.id) :=
    List.getElem?_mem hf
  obtain ⟨h1, h2⟩ := List.mem_filter.mp hm
  refine ⟨f, h1, hx, ?_⟩
  rw [← hx]
  simpa using h2

/-- With a non-empty pool `randomFontId` returns an id. -/
theorem randomFontId_isSome (exclude : List String) (draw : RandomDraw) (st : AppState)
    (hpool : st.catalog.filter (fun f => !exclude.contains f.id) ≠ []) :
    ∃ x, randomFontId exclude draw st = some x := by
  unfold randomFontId
  have hlen : 0 < (st.catalog.filter (fun f => !exclude.contains f.id)).length :=
    List.length_pos.mpr hpool
  have hidx : (roundToDouble (Int.ofNat (draw.mantissa *
        (st.catalog.filter (fun f => !exclude.contains f.id)).length))).toNat
        / 2 ^ draw.exponent
      < (st.catalog.filter (fun f => !exclude.contains f.id)).length :=
    (Nat.div_lt_iff_lt_mul (by positivity)).mpr
      (roundToDouble_product_lt _ _ _ draw.lt_one draw.significant hlen)
  simp only
  rw [List.getElem?_eq_getElem hidx]
  exact ⟨_, rfl⟩

/-- A catalog with three entries of pairwise different ids has an entry outside
any two ids. -/
theorem pool_ne_nil (catalog : List FontMeta) (exclude : List String)
    (hex : exclude.length ≤ 2)
    (hthree : ∃ f1 ∈ catalog, ∃ f2 ∈ catalog, ∃ f3 ∈ catalog,
      f1.id ≠ f2.id ∧ f1.id ≠ f3.id ∧ f2.id ≠ f3.id) :
    catalog.filter (fun f => !exclude.contains f.id) ≠ [] := by
  obtain ⟨f1, h1, f2, h2, f3, h3, n12, n13, n23⟩ := hthree
  intro h
  rw [List.filter_eq_nil_iff] at h
  have m1 : f1.id ∈ exclude := by simpa using h f1 h1
  have m2 : f2.id ∈ exclude := by simpa using h f2 h2
  have m3 : f3.id ∈ exclude := by simpa using h f3 h3
  match exclude, hex, m1, m2, m3 with
  | [], _, m1, _, _ => simp at m1
  | [x], _, m1, m2, _ =>
    simp only [List.mem_singleton] at m1 m2
    exact n12 (m1.trans m2.symm)
  | [x, y], _, m1, m2, m3 =>
    simp only [List.mem_cons, List.mem_singleton, List.not_mem_nil, or_false] at m1 m2 m3
    rcases m1 with a1 | a1 <;> rcases m2 with a2 | a2 <;> rcases m3 with a3 | a3
    · exact n12 (a1.trans a2.symm)
    · exact n12 (a1.trans a2.symm)
    · exact n13 (a1.trans a3.symm)
    · exact n23 (a2.trans a3.symm)
    · exact n23 (a2.trans a3.symm)
    · exact n13 (a1.trans a3.symm)
    · exact n12 (a1.trans a2.symm)
    · exact n12 (a1.trans a2.symm)
  | _ :: _ :: _ :: _, hex, _, _, _ =>
    simp only [List.length_cons] at hex
    omega

/-- The two outcomes of `pickWinner`: nothing changes, or the loser slot gets
the non-empty id of a catalog entry that is neither of the current ids. -/
theorem pickWinner_cases (side : String) (draw : RandomDraw) (st : AppState) :
    (pickWinner side draw st = st ∧
      ∀ x, randomFontId
        (truthyIds [if side = "left" then st.leftId else st.rightId,
          if side = "left" then st.rightId else st.leftId]) draw st = some x → x = "") ∨
    ∃ f ∈ st.catalog, f.id ≠ "" ∧
      f.id ∉ truthyIds [if side = "left" then st.leftId else st.rightId,
        if side = "left" then st.rightId else st.leftId] ∧
      pickWinner side draw st =
        if side = "left" then { st with rightId := some f.id }
        else { st with leftId := some f.id } := by
  unfold pickWinner
  simp only
  cases h : randomFontId
      (truthyIds [if side = "left" then st.leftId else st.rightId,
        if side = "left" then st.rightId else st.leftId]) draw st with
  | none => exact Or.inl ⟨rfl, fun x hx => Option.noConfusion hx⟩
  | some x =>
    by_cases hx : x = ""
    · left
      refine ⟨by simp [hx], ?_⟩
      intro y hy
      cases hy
      exact hx
    · right
      obtain ⟨f, hf, hfx, hex⟩ := randomFontId_some _ draw st x h
      refine ⟨f, hf, by rw [hfx]; exact hx, by rw [hfx]; exact hex, ?_⟩
      simp only [hx, if_false, hfx]

theorem id_ne_of_not_mem_truthyIds (x : String) (a b : Option String) (hx : x ≠ "")
    (h : x ∉ truthyIds [a, b]) : some x ≠ a ∧ some x ≠ b := by
  rw [mem_truthyIds] at h
  constructor
  · intro e
    exact h ⟨by rw [e]; simp, hx⟩
  · intro e
    exact h ⟨by rw [e]; simp, hx⟩

/-- C16, as the code has it: for every state whose catalog has three entries
with pairwise different ids and no entry with the empty string as its id, and
for every random draw, after `pickWinner("left")` the right id is the id of a
catalog entry and equals neither the left id nor the right id of before;
symmetrically for `pickWinner("right")` and the left id. -/
theorem pickWinner_replaces_loser (draw : RandomDraw) (st : AppState)
    (hthree : ∃ f1 ∈ st.catalog, ∃ f2 ∈ st.catalog, ∃ f3 ∈ st.catalog,
      f1.id ≠ f2.id ∧ f1.id ≠ f3.id ∧ f2.id ≠ f3.id)
    (hids : ∀ f ∈ st.catalog, f.id ≠ "") :
    ((pickWinner "left" draw st).rightId ≠ st.leftId ∧
      (pickWinner "left" draw st).rightId ≠ st.rightId ∧
      ∃ f ∈ st.catalog, (pickWinner "left" draw st).rightId = some f.id) ∧
    ((pickWinner "right" draw st).leftId ≠ st.leftId ∧
      (pickWinner "right" draw st).leftId ≠ st.rightId ∧
      ∃ f ∈ st.catalog, (pickWinner "right" draw st).leftId = some f.id) := by
  have changes : ∀ side : String,
      ∃ f ∈ st.catalog, f.id ≠ "" ∧
        f.id ∉ truthyIds [if side = "left" then st.leftId else st.rightId,
          if side = "left" then st.rightId else st.leftId] ∧
        pickWinner side draw st =
          if side = "left" then { st with rightId := some f.id }
          else { st with leftId := some f.id } := by
    intro side
    rcases pickWinner_cases side draw st with ⟨_, h⟩ | h
    · exfalso
      obtain ⟨x, hx⟩ := randomFontId_isSome _ draw st
        (pool_ne_nil st.catalog _ (truthyIds_length_le _ _) hthree)
      obtain ⟨f, hf, hfx, _⟩ := randomFontId_some _ draw st x hx
      exact hids f hf (by rw [hfx]; exact h x hx)
    · exact h
  constructor
  · obtain ⟨f, hf, hne, hex, hp⟩ := changes "left"
    simp only [if_true] at hex hp
    rw [hp]
    obtain ⟨h1, h2⟩ := id_ne_of_not_mem_truthyIds _ _ _ hne hex
    exact ⟨h1, h2, f, hf, rfl⟩
  · obtain ⟨f, hf, hne, hex, hp⟩ := changes "right"
    simp only [show ¬ ("right" = "left") by decide, if_false] at hex hp
    rw [hp]
    obtain ⟨h1, h2⟩ := id_ne_of_not_mem_truthyIds _ _ _ hne hex
    exact ⟨h2, h1, f, hf, rfl⟩

set_option maxRecDepth 100000 in
theorem pickWinner_replaces_loser_witness :
    (pickWinner "left" halfDraw sampleState).rightId = some "b" ∧
    (pickWinner "left" twoThirdsDraw repeatedIdState).rightId = some "example" ∧
    ((pickWinner "left" twoThirdsDraw repeatedIdState).rightId ≠ repeatedIdState.leftId ∧
      (pickWinner "left" twoThirdsDraw repeatedIdState).rightId ≠ repeatedIdState.rightId ∧
      ∃ f ∈ repeatedIdState.catalog,
        (pickWinner "left" twoThirdsDraw repeatedIdState).rightId = some f.id) :=
  ⟨by decide, by decide,
   (pickWinner_replaces_loser twoThirdsDraw repeatedIdState
      ⟨normalOnlyMeta, by decide, regularOnlyMeta, by decide, brokenMeta, by decide,
        by decide, by decide, by decide⟩
      (by decide)).1⟩

/-- C16 as stated fails. A catalog of three entries with the different ids
`"a"`, `"r"` and `""`, with `"a"` on the left and `"r"` on the right, leaves the
entry with the empty id as the only one in the pool; its id is falsy, so
`pickWinner` changes nothing and the right id stays what it was. And a catalog
of three entries, two of which share the id on the left while the third has the
id on the right, leaves `pickWinner` with an empty pool, and again the right id
stays what it was. -/
theorem pickWinner_replaces_loser_counterexample :
    (3 ≤ emptyIdState.catalog.length ∧
      (emptyIdState.catalog.map (fun f => f.id)).Nodup ∧
      emptyIdState.rightId = some "r" ∧
      (pickWinner "left" halfDraw emptyIdState).rightId = emptyIdState.rightId) ∧
    (3 ≤ duplicateIdState.catalog.length ∧
      duplicateIdState.rightId = some "r" ∧
      (pickWinner "left" halfDraw duplicateIdState).rightId = duplicateIdState.rightId) := by
  decide

/-- C17: `pickWinner(side)` keeps the preferred font. For every state and
random draw the id on the winner side and every field other than the loser
slot are unchanged; and when every catalog entry has the id of the winner or
of the loser, the loser slot is unchanged as well, so the state is unchanged. -/
theorem pickWinner_frame (side : String) (draw : RandomDraw) (st : AppState) :
    (if side = "left" then (pickWinner side draw st).leftId
      else (pickWinner side draw st).rightId) =
      (if side = "left" then st.leftId else st.rightId) ∧
    (pickWinner side draw st =
      if side = "left" then { st with rightId := (pickWinner side draw st).rightId }
      else { st with leftId := (pickWinner side draw st).leftId }) ∧
    ((∀ f ∈ st.catalog,
        some f.id = (if side = "left" then st.leftId else st.rightId) ∨
        some f.id = (if side = "left" then st.rightId else st.leftId)) →
      pickWinner side draw st = st) := by
  rcases pickWinner_cases side draw st with ⟨h, _⟩ | ⟨f, hf, hne, hex, h⟩
  · rw [h]
    refine ⟨rfl, ?_, fun _ => rfl⟩
    by_cases hs : side = "left" <;> simp [hs]
  · refine ⟨?_, ?_, ?_⟩
    · rw [h]
      by_cases hs : side = "left" <;> simp [hs]
    · rw [h]
      by_cases hs : side = "left" <;> simp [hs]
    · intro hall
      exfalso
      obtain ⟨h1, h2⟩ := id_ne_of_not_mem_truthyIds _ _ _ hne hex
      rcases hall f hf with e | e
      · exact h1 e
      · exact h2 e

theorem pickWinner_frame_witness :
    (∀ f ∈ duplicateIdState.catalog,
      some f.id = duplicateIdState.leftId ∨ some f.id = duplicateIdState.rightId) ∧
    pickWinner "left" halfDraw duplicateIdState = duplicateIdState ∧
    (pickWinner "left" halfDraw sampleState).leftId = sampleState.leftId :=
  ⟨by decide,
   (pickWinner_frame "left" halfDraw duplicateIdState).2.2 (by decide),
   (pickWinner_frame "left" halfDraw sampleState).1⟩

/-! ## `toggleFavorite` -/

/-- C18: `toggleFavorite` is its own inverse on the set of favourite ids: after
two calls with the same id the favourites hold exactly the ids they held
before, and no other field has changed. -/
theorem toggleFavorite_twice (x : String) (st : AppState) :
    (∀ y, y ∈ (toggleFavorite x (toggleFavorite x st)).favorites ↔ y ∈ st.favorites) ∧
    toggleFavorite x (toggleFavorite x st) =
      { st with favorites := (toggleFavorite x (toggleFavorite x st)).favorites } := by
  refine ⟨?_, rfl⟩
  intro y
  by_cases hx : x ∈ st.favorites
  · have h1 : (toggleFavorite x st).favorites =
        st.favorites.filter (fun id => decide (id ≠ x)) := by
      simp [toggleFavorite, hx]
    have h2 : x ∉ (toggleFavorite x st).favorites := by
      rw [h1]; simp
    have h3 : (toggleFavorite x (toggleFavorite x st)).favorites =
        (toggleFavorite x st).favorites ++ [x] := by
      show (if x ∈ (toggleFavorite x st).favorites then _ else _) = _
      rw [if_neg h2]
    rw [h3, h1]
    simp only [List.mem_append, List.mem_filter, decide_eq_true_eq, List.mem_singleton]
    constructor
    · rintro (⟨h, _⟩ | h)
      · exact h
      · rw [h]; exact hx
    · intro h
      by_cases e : y = x
      · exact Or.inr e
      · exact Or.inl ⟨h, e⟩
  · have h1 : (toggleFavorite x st).favorites = st.favorites ++ [x] := by
      simp [toggleFavorite, hx]
    have h2 : x ∈ (toggleFavorite x st).favorites := by
      rw [h1]; simp
    have h3 : (toggleFavorite x (toggleFavorite x st)).favorites =
        (toggleFavorite x st).favorites.filter (fun id => decide (id ≠ x)) := by
      show (if x ∈ (toggleFavorite x st).favorites then _ else _) = _
      rw [if_pos h2]
    rw [h3, h1]
    simp only [List.mem_filter, List.mem_append, List.mem_singleton, decide_eq_true_eq]
    constructor
    · rintro ⟨h | h, hne⟩
      · exact h
      · exact absurd h hne
    · intro h
      exact ⟨Or.inl h, fun e => hx (e ▸ h)⟩

/-! ## Appending to the catalog -/

/-- C19, as the code has it: appending never compares ids. `addUploadedFont`
puts the descriptor at the end of the catalog and a successful
`handleFileUpload` puts all its descriptors there, also when an id equals the
id of an existing entry; a failed upload leaves the catalog as it is; and
`getFontById` of an id that was already in the catalog keeps returning the
entry it returned before. -/
theorem catalog_append_unchecked (fd : FontMeta) (metas : List FontMeta) (message : String)
    (st : AppState) :
    (addUploadedFont fd st).catalog = st.catalog ++ [fd] ∧
    (handleFileUpload (.ok metas) st).catalog = st.catalog ++ metas ∧
    (handleFileUpload (.error message) st).catalog = st.catalog ∧
    (∀ e ∈ st.catalog, e.id = fd.id →
      getFontById (some fd.id) (addUploadedFont fd st) = getFontById (some fd.id) st) := by
  refine ⟨rfl, rfl, rfl, ?_⟩
  intro e he hid
  unfold getFontById
  show (st.catalog ++ [fd]).find? _ = _
  rw [List.find?_append]
  cases hfind : st.catalog.find? (fun f => decide (some f.id = some fd.id)) with
  | some _ => rfl
  | none =>
    exfalso
    have := List.find?_eq_none.mp hfind e he
    simp [hid] at this

theorem catalog_append_unchecked_witness :
    (∃ e ∈ sampleState.catalog, e.id = duplicateMeta.id) ∧
    getFontById (some "a") (addUploadedFont duplicateMeta sampleState) = some normalOnlyMeta :=
  ⟨⟨normalOnlyMeta, by decide, rfl⟩,
   ((catalog_append_unchecked duplicateMeta [] "" sampleState).2.2.2 normalOnlyMeta
      (by decide) rfl).trans (by decide)⟩

/-- C19 as stated fails: appending a descriptor with the id `"a"` to a catalog
that already has an entry with that id is not rejected, and the catalog grows
by the duplicate. -/
theorem catalog_append_duplicate_counterexample :
    (∃ e ∈ sampleState.catalog, e.id = duplicateMeta.id) ∧
    (addUploadedFont duplicateMeta sampleState).catalog =
      [normalOnlyMeta, regularOnlyMeta, brokenMeta, duplicateMeta] ∧
    (addUploadedFont duplicateMeta sampleState).catalog ≠ sampleState.catalog ∧
    (handleFileUpload (.ok [duplicateMeta]) sampleState).catalog ≠ sampleState.catalog := by
  refine ⟨⟨normalOnlyMeta, by decide, rfl⟩, by decide, by decide, by decide⟩

/-! ## `createFontMetaFromFile` -/

theorem uploadedFileKey_eq (v : VariantMeta) :
    uploadedFileKey v = getVariantKey v.weight v.style := by
  unfold uploadedFileKey getVariantKey
  by_cases h : v.style = "italic" <;> simp [h]

/-- The descriptor of an upload has the source `"uploaded"`, one variant and one
entry in `files`; the key of that entry is the variant key of the variant
unless the file name parses as italic while the override gives another style. -/
theorem createFontMetaFromFile_shape (file : UploadedFile) (metadata : UploadMetadata)
    (parsed : ParsedFilename) (blobUrl : String) (now : Nat) :
    (createFontMetaFromFile file metadata parsed blobUrl now).source = "uploaded" ∧
    ∃ v k,
      (createFontMetaFromFile file metadata parsed blobUrl now).variants = some [v] ∧
      (createFontMetaFromFile file metadata parsed blobUrl now).files = some [(k, blobUrl)] ∧
      (parsed.style ≠ "italic" ∨ v.style = "italic" → k = getVariantKey v.weight v.style) := by
  refine ⟨rfl, _, _, rfl, rfl, ?_⟩
  intro h
  simp only [getVariantKey]
  cases hm : metadata.style with
  | none =>
    simp only [orString, hm] at h ⊢
    by_cases hp : parsed.style = "italic" <;> simp [hp]
  | some x =>
    by_cases hx : x = ""
    · simp only [orString, hm, hx, if_true] at h ⊢
      by_cases hp : parsed.style = "italic" <;> simp [hp]
    · simp only [orString, hm, hx, if_false] at h ⊢
      by_cases hi : x = "italic"
      · simp [hi]
      · rcases h with h | h
        · simp [hi, h]
        · exact absurd h hi

/-- C20 at its failing input: for the upload `Foo-Italic.woff2` with the
override `{ style: "normal" }` the descriptor declares the variant
(400, normal) but stores its file under `"400italic"`, which is not
`getVariantKey(400, "normal")`: the declared variant has no resource under its
own key and `loadUploadedFont` finds no locator. -/
theorem createFontMetaFromFile_key_mismatch :
    createFontMetaFromFile italicFile normalStyleOverride italicParsed "blob:1" 1700 =
      { id := "uploaded-foo-italic-woff2-1700", family := "Foo",
        category := some "sans-serif", variants := some [⟨400, "normal"⟩],
        files := some [("400italic", "blob:1")], source := "uploaded" } ∧
    getVariantKey 400 "normal" = "400" ∧
    dictGet (getVariantKey 400 "normal") [("400italic", "blob:1")] = none ∧
    loadUploadedFontUrl
      (createFontMetaFromFile italicFile normalStyleOverride italicParsed "blob:1" 1700) =
      none ∧
    loadUploadedFontUrl
      (createFontMetaFromFile italicFile noOverride italicParsed "blob:1" 1700) =
      some "blob:1" := by
  decide

/-! ## Uploads: which files are taken -/

/-- C21: an upload fails exactly when none of the given files is a supported
font file, the empty list included: `processUploadedFonts` then throws, and
`handleFileUpload` records the message of the error and leaves the catalog as
it is; otherwise `processUploadedFonts` returns one descriptor for each
supported file, in the order of the input, and `handleFileUpload` appends
exactly those to the catalog. -/
theorem upload_fails_iff_none_supported (createMeta : UploadedFile → FontMeta)
    (files : List UploadedFile) (st : AppState) :
    ((∀ f ∈ files, isSupportedFontFile f = false) ↔
      ∃ message, processUploadedFonts createMeta files = .error message) ∧
    (∀ message, processUploadedFonts createMeta files = .error message →
      (handleFileUpload (processUploadedFonts createMeta files) st).uploadError =
        some message ∧
      (handleFileUpload (processUploadedFonts createMeta files) st).catalog = st.catalog) ∧
    ((∃ f ∈ files, isSupportedFontFile f = true) →
      processUploadedFonts createMeta files =
        .ok ((files.filter isSupportedFontFile).map createMeta) ∧
      (handleFileUpload (processUploadedFonts createMeta files) st).catalog =
        st.catalog ++ (files.filter isSupportedFontFile).map createMeta) := by
  by_cases hnone : ∀ f ∈ files, isSupportedFontFile f = false
  · have hfilter : files.filter isSupportedFontFile = [] := by
      rw [List.filter_eq_nil_iff]
      intro f hf
      simp [hnone f hf]
    have herr : processUploadedFonts createMeta files =
        .error "No supported font files found. Supported formats: .woff2, .woff, .ttf, .otf" := by
      simp [processUploadedFonts, hfilter]
    refine ⟨⟨fun _ => ⟨_, herr⟩, fun _ => hnone⟩, ?_, ?_⟩
    · intro message hm
      rw [hm]
      exact ⟨rfl, rfl⟩
    · rintro ⟨f, hf, hs⟩
      rw [hnone f hf] at hs
      exact Bool.noConfusion hs
  · have hsome : ∃ f ∈ files, isSupportedFontFile f = true := by
      by_contra hcon
      apply hnone
      intro f hf
      cases hs : isSupportedFontFile f with
      | false => rfl
      | true => exact absurd ⟨f, hf, hs⟩ hcon
    have hfilter : (files.filter isSupportedFontFile).length ≠ 0 := by
      obtain ⟨f, hf, hs⟩ := hsome
      have : f ∈ files.filter isSupportedFontFile := List.mem_filter.mpr ⟨hf, hs⟩
      exact fun h => List.ne_nil_of_mem this (List.length_eq_zero.mp h)
    have hok : processUploadedFonts createMeta files =
        .ok ((files.filter isSupportedFontFile).map createMeta) := by
      simp only [processUploadedFonts, hfilter, if_false]
    refine ⟨⟨fun h => absurd h hnone, ?_⟩, ?_, ?_⟩
    · rintro ⟨message, hm⟩
      rw [hok] at hm
      exact Except.noConfusion hm
    · intro message hm
      rw [hok] at hm
      exact Except.noConfusion hm
    · intro _
      refine ⟨hok, ?_⟩
      rw [hok]
      rfl

theorem upload_fails_iff_none_supported_witness :
    isSupportedFontFile italicFile = true ∧ isSupportedFontFile textFile = false ∧
    processUploadedFonts exampleCreateMeta [textFile, italicFile, textFile] =
      .ok [exampleCreateMeta italicFile] ∧
    (handleFileUpload (processUploadedFonts exampleCreateMeta [textFile, italicFile, textFile])
        sampleState).catalog =
      sampleState.catalog ++
        ([textFile, italicFile, textFile].filter isSupportedFontFile).map exampleCreateMeta ∧
    (handleFileUpload (processUploadedFonts exampleCreateMeta [textFile]) sampleState).catalog =
      sampleState.catalog ∧
    (handleFileUpload (processUploadedFonts exampleCreateMeta []) sampleState).uploadError =
      some "No supported font files found. Supported formats: .woff2, .woff, .ttf, .otf" :=
  ⟨by decide, by decide, rfl,
   ((upload_fails_iff_none_supported exampleCreateMeta [textFile, italicFile, textFile]
      sampleState).2.2 ⟨italicFile, by decide, by decide⟩).2,
   ((upload_fails_iff_none_supported exampleCreateMeta [textFile] sampleState).2.1
      "No supported font files found. Supported formats: .woff2, .woff, .ttf, .otf" rfl).2,
   ((upload_fails_iff_none_supported exampleCreateMeta [] sampleState).2.1
      "No supported font files found. Supported formats: .woff2, .woff, .ttf, .otf" rfl).1⟩

/-! ## `parseFontFilename` -/

/-- The name `Foo-Italic.woff2` parses to the value used for the uploads of
the examples. -/
theorem parseFontFilename_italicFile :
    (parseFontFilename italicFile.name).numeric = some italicParsed ∧
    createUploadMeta "blob:1" 1700 italicFile = some (exampleCreateMeta italicFile) := by
  decide

/-- C22 at its failing input: `FontFamily-BoldItalic.woff2`, a pattern the
comment of `parseFontFilename` lists, splits into `FontFamily` and
`BoldItalic`; `bolditalic` is no key of the weight table, so the weight stays
400 while the style becomes italic. The same happens for every name of the
table: the weight of `FontFamily-<name>Italic.woff2` is 400, whatever the value
of the name. -/
theorem parseFontFilename_combined_pattern :
    parseFontFilename "FontFamily-BoldItalic.woff2" =
      { family := "FontFamily", weight := .number 400, style := "italic" } ∧
    dictGet "bold" weightMap = some 700 ∧
    (∀ e ∈ weightMap,
      parseFontFilename ("FontFamily-" ++ e.1 ++ "Italic.woff2") =
        { family := "FontFamily", weight := .number 400, style := "italic" }) := by
  decide

/-- C23 at its failing input: for `Foo-Constructor.ttf` the lookup
`weightMap["constructor"]` finds the function that every object inherits from
`Object.prototype`, and that function becomes the weight: it is no integer. -/
theorem parseFontFilename_inherited_weight :
    parseFontFilename "Foo-Constructor.ttf" =
      { family := "Foo", weight := .inherited "constructor", style := "normal" } ∧
    (parseFontFilename "Foo-Constructor.ttf").numeric = none ∧
    ¬ ∃ n : Int, (parseFontFilename "Foo-Constructor.ttf").weight = .number n := by
  refine ⟨by decide, by decide, ?_⟩
  rintro ⟨n, hn⟩
  have h : (parseFontFilename "Foo-Constructor.ttf").weight = .inherited "constructor" := by
    decide
  rw [h] at hn
  exact WeightValue.noConfusion hn

theorem dictGet_mem {β : Type} (k : String) (v : β) (m : List (String × β))
    (h : dictGet k m = some v) : (k, v) ∈ m := by
  induction m with
  | nil => exact Option.noConfusion h
  | cons e m ih =>
    obtain ⟨k1, v1⟩ := e
    by_cases hk : k1 = k
    · simp only [dictGet, hk, if_true, Option.some.injEq] at h
      rw [hk, h]
      exact List.mem_cons_self _ _
    · simp only [dictGet, hk, if_false] at h
      exact List.mem_cons_of_mem _ (ih h)

theorem weightMapGet_ok (part : String) (v : WeightValue) (h : weightMapGet part = some v) :
    v.InTableOrInherited := by
  unfold weightMapGet at h
  cases hd : dictGet part weightMap with
  | some n =>
    rw [hd] at h
    cases h
    have hm := dictGet_mem part n weightMap hd
    have hall : ∀ e ∈ weightMap, 100 ≤ e.2 ∧ e.2 ≤ 900 := by decide
    exact Or.inl ⟨n, rfl, hall _ hm⟩
  | none =>
    rw [hd] at h
    by_cases hk : part ∈ objectPrototypeKeys
    · simp only [hk, if_true, Option.some.injEq] at h
      exact Or.inr ⟨part, hk, h.symm⟩
    · simp [hk] at h

theorem string_ne_empty_of_data (l : List Char) (h : l ≠ []) : String.mk l ≠ "" := by
  intro e
  exact h (congrArg String.data e)

theorem append_ne_empty (a b : String) (h : a ≠ "") : a ++ b ≠ "" := by
  intro e
  apply h
  have hd := congrArg String.data e
  simp only [String.data_append] at hd
  exact String.ext (List.append_eq_nil.mp hd).1

/-- One round of the loop keeps the family non-empty, the style among
`"normal"` and `"italic"`, and the weight a number from 100 to 900 or an
inherited value. -/
theorem parseStep_keeps (i : Nat) (rawPart : List Char) (acc : ParseResult)
    (hf : acc.family ≠ "") (hs : acc.style = "normal" ∨ acc.style = "italic")
    (hw : acc.weight.InTableOrInherited) :
    (parseStep i rawPart acc).family ≠ "" ∧
    ((parseStep i rawPart acc).style = "normal" ∨ (parseStep i rawPart acc).style = "italic") ∧
    (parseStep i rawPart acc).weight.InTableOrInherited := by
  unfold parseStep
  simp only
  cases hn : jsParseInt (toLowerCase rawPart) with
  | some n =>
    simp only
    by_cases hr : 100 ≤ n ∧ n ≤ 900
    · simp only [hr, and_self, if_true]
      exact ⟨hf, hs, Or.inl ⟨n, rfl, hr⟩⟩
    · simp only [hr, if_false]
      cases hg : weightMapGet (String.mk (toLowerCase rawPart)) with
      | some v => exact ⟨hf, hs, weightMapGet_ok _ v hg⟩
      | none =>
        simp only
        split
        · exact ⟨hf, Or.inr rfl, hw⟩
        · exact ⟨hf, hs, hw⟩
  | none =>
    simp only
    cases hg : weightMapGet (String.mk (toLowerCase rawPart)) with
    | some v => exact ⟨hf, hs, weightMapGet_ok _ v hg⟩
    | none =>
      simp only
      split
      · exact ⟨hf, Or.inr rfl, hw⟩
      · split
        · refine ⟨?_, hs, hw⟩
          show acc.family ++ " " ++ String.mk rawPart ≠ ""
          exact append_ne_empty _ _ (append_ne_empty _ _ hf)
        · exact ⟨hf, hs, hw⟩

theorem parseLoop_keeps (rest : List (List Char)) :
    ∀ (i : Nat) (acc : ParseResult), acc.family ≠ "" →
      (acc.style = "normal" ∨ acc.style = "italic") → acc.weight.InTableOrInherited →
      (parseLoop i rest acc).family ≠ "" ∧
      ((parseLoop i rest acc).style = "normal" ∨ (parseLoop i rest acc).style = "italic") ∧
      (parseLoop i rest acc).weight.InTableOrInherited := by
  induction rest with
  | nil => intro i acc hf hs hw; exact ⟨hf, hs, hw⟩
  | cons rawPart rest ih =>
    intro i acc hf hs hw
    obtain ⟨h1, h2, h3⟩ := parseStep_keeps i rawPart acc hf hs hw
    exact ih (i + 1) _ h1 h2 h3

/-- What holds of every result of `parseFontFilename`: the family is not
empty, the style is `"normal"` or `"italic"`, and the weight is a number from
100 to 900 unless it is a value inherited from `Object.prototype`. -/
theorem parseFontFilename_result (filename : String) :
    (parseFontFilename filename).family ≠ "" ∧
    ((parseFontFilename filename).style = "normal" ∨
      (parseFontFilename filename).style = "italic") ∧
    (parseFontFilename filename).weight.InTableOrInherited := by
  have h400 : (WeightValue.number 400).InTableOrInherited :=
    Or.inl ⟨400, rfl, by decide, by decide⟩
  unfold parseFontFilename
  split
  · exact ⟨by decide, Or.inl rfl, h400⟩
  · rename_i first rest _
    apply parseLoop_keeps rest 1 _ _ (Or.inl rfl) h400
    show (if first = [] then "Unknown Font" else String.mk first) ≠ ""
    by_cases hfirst : first = []
    · simp [hfirst]
    · simp only [hfirst, if_false]
      exact string_ne_empty_of_data first hfirst

end FontPicker
